import Mathlib

/-!
Verification development for the slowclaw.social gateway.

This file shallowly embeds the admission-layer data structures
(sliding-window rate limiter, idempotency memory, client-key derivation,
webhook signature stub), the path-sandbox resolvers, the DocStore chat
worker (reminder parser, pending-message fetch, per-record effect trace)
and the chat REST thread listing, and proves or refutes the frozen
behavioural claims about them.

Conventions of the embedding:
* Rust machine integers are modelled as Nat or Int; monotonic clock
  instants are Nats (seconds); chrono durations are Int seconds.
* Rust HashMap values are modelled as association lists whose iteration
  order is the insertion order; every property proved about an eviction
  choice made through a minimum is independent of that order.
* String handling is modelled at the character-list level; whitespace
  means the ASCII whitespace characters, which matches the Rust
  behaviour on all ASCII inputs exercised by the claims.
* Fallible external calls (DocStore PATCH/POST, the agent, the cron
  scheduler) are oracles passed in as function arguments.
-/

/- ## ASCII string helpers (shared by the embeddings) -/

def isAsciiWs (c : Char) : Bool :=
  c.toNat = 32 || c.toNat = 9 || c.toNat = 10 || c.toNat = 13

def asciiLower (c : Char) : Char :=
  if 65 ≤ c.toNat ∧ c.toNat ≤ 90 then Char.ofNat (c.toNat + 32) else c

def lowerL (l : List Char) : List Char := l.map asciiLower

def trimLeftL (l : List Char) : List Char := l.dropWhile isAsciiWs

def trimRightL (l : List Char) : List Char := (l.reverse.dropWhile isAsciiWs).reverse

def trimL (l : List Char) : List Char := trimRightL (trimLeftL l)

def isAsciiDigit (c : Char) : Bool := 48 ≤ c.toNat && c.toNat ≤ 57

def isAsciiAlpha (c : Char) : Bool :=
  (97 ≤ c.toNat && c.toNat ≤ 122) || (65 ≤ c.toNat && c.toNat ≤ 90)

/-- Value of a list of ASCII digit characters read as a base-10 Nat. -/
def digitsToNat (l : List Char) : Nat :=
  l.foldl (fun acc c => acc * 10 + (c.toNat - '0'.toNat)) 0

/-- Rust str::eq_ignore_ascii_case, modelled per character. -/
def eqIgnoreAsciiCase (a b : List Char) : Bool := lowerL a == lowerL b

/-- ASCII-lowercased copy of a String (Rust to_ascii_lowercase). -/
def lowerStr (s : String) : String := String.mk (lowerL s.data)

theorem lowerL_nil : lowerL [] = [] := rfl

theorem not_ws_of_digit {c : Char} (h : isAsciiDigit c = true) : isAsciiWs c = false := by
  simp only [isAsciiDigit, Bool.and_eq_true, decide_eq_true_eq] at h
  simp only [isAsciiWs, Bool.or_eq_false_iff, decide_eq_false_iff_not]
  omega

theorem not_ws_of_alpha {c : Char} (h : isAsciiAlpha c = true) : isAsciiWs c = false := by
  simp only [isAsciiAlpha, Bool.or_eq_true, Bool.and_eq_true, decide_eq_true_eq] at h
  simp only [isAsciiWs, Bool.or_eq_false_iff, decide_eq_false_iff_not]
  omega

theorem not_digit_of_alpha {c : Char} (h : isAsciiAlpha c = true) : isAsciiDigit c = false := by
  simp only [isAsciiAlpha, Bool.or_eq_true, Bool.and_eq_true, decide_eq_true_eq] at h
  simp only [isAsciiDigit, Bool.and_eq_false_iff, decide_eq_false_iff_not]
  omega

theorem asciiLower_digit {c : Char} (h : isAsciiDigit c = true) : asciiLower c = c := by
  simp only [isAsciiDigit, Bool.and_eq_true, decide_eq_true_eq] at h
  simp only [asciiLower, ite_eq_right_iff]
  omega

theorem dropWhile_idem (p : Char → Bool) (l : List Char) :
    List.dropWhile p (List.dropWhile p l) = List.dropWhile p l := by
  induction l with
  | nil => rfl
  | cons c t ih =>
    by_cases hc : p c = true
    · simpa [List.dropWhile_cons, hc] using ih
    · simp [List.dropWhile_cons, hc]

theorem trimLeftL_idem (l : List Char) : trimLeftL (trimLeftL l) = trimLeftL l :=
  dropWhile_idem _ l

theorem trimRightL_idem (l : List Char) : trimRightL (trimRightL l) = trimRightL l := by
  simp only [trimRightL, List.reverse_reverse]
  rw [dropWhile_idem]

theorem trimLeftL_cons_of_ws {c : Char} (t : List Char) (h : isAsciiWs c = true) :
    trimLeftL (c :: t) = trimLeftL t := by
  simp [trimLeftL, List.dropWhile_cons, h]

theorem trimLeftL_cons_of_not_ws {c : Char} (t : List Char) (h : isAsciiWs c = false) :
    trimLeftL (c :: t) = c :: t := by
  simp [trimLeftL, List.dropWhile_cons, h]

theorem trimLeftL_eq_nil_of_all_ws {l : List Char} (h : ∀ c ∈ l, isAsciiWs c = true) :
    trimLeftL l = [] :=
  List.dropWhile_eq_nil_iff.mpr h

theorem trimRightL_eq_nil_iff {l : List Char} :
    trimRightL l = [] ↔ ∀ c ∈ l, isAsciiWs c = true := by
  constructor
  · intro h c hc
    have h2 : List.dropWhile isAsciiWs l.reverse = [] := by
      have := congrArg List.reverse h
      simpa [trimRightL] using this
    exact List.dropWhile_eq_nil_iff.mp h2 c (by simpa using hc)
  · intro h
    have h2 : List.dropWhile isAsciiWs l.reverse = [] :=
      List.dropWhile_eq_nil_iff.mpr (fun c hc => h c (by simpa using hc))
    simp [trimRightL, h2]

theorem dropWhile_reverse_eq_nil {t : List Char} (ht : trimRightL t = []) :
    List.dropWhile isAsciiWs t.reverse = [] := by
  have := congrArg List.reverse ht
  simpa [trimRightL] using this

theorem trimRightL_cons (c : Char) (t : List Char) :
    trimRightL (c :: t) =
      if trimRightL t = [] then (if isAsciiWs c = true then [] else [c])
      else c :: trimRightL t := by
  have key : trimRightL (c :: t) =
      (if (List.dropWhile isAsciiWs t.reverse).isEmpty = true then List.dropWhile isAsciiWs [c]
       else List.dropWhile isAsciiWs t.reverse ++ [c]).reverse := by
    rw [trimRightL, List.reverse_cons, List.dropWhile_append]
  by_cases ht : trimRightL t = []
  · have hnil : List.dropWhile isAsciiWs t.reverse = [] := dropWhile_reverse_eq_nil ht
    rw [key, hnil, if_pos ht]
    by_cases hc : isAsciiWs c = true
    · simp [List.dropWhile_cons, hc]
    · simp [List.dropWhile_cons, hc]
  · have hnnil : ¬ List.dropWhile isAsciiWs t.reverse = [] := by
      intro hx
      exact ht (by simp [trimRightL, hx])
    rw [key, if_neg ht, if_neg (by simpa [List.isEmpty_iff] using hnnil)]
    simp [trimRightL]

theorem trimRightL_append (A B : List Char) (h : trimRightL B ≠ []) :
    trimRightL (A ++ B) = A ++ trimRightL B := by
  have hnnil : ¬ List.dropWhile isAsciiWs B.reverse = [] := by
    intro hx
    exact h (by simp [trimRightL, hx])
  rw [trimRightL, List.reverse_append, List.dropWhile_append,
    if_neg (by simpa [List.isEmpty_iff] using hnnil)]
  simp [trimRightL]

theorem trimLeft_trimRight_comm (l : List Char) :
    trimLeftL (trimRightL l) = trimRightL (trimLeftL l) := by
  induction l with
  | nil => rfl
  | cons c t ih =>
    by_cases hc : isAsciiWs c = true
    · rw [trimLeftL_cons_of_ws t hc, trimRightL_cons]
      by_cases ht : trimRightL t = []
      · have hall : ∀ x ∈ t, isAsciiWs x = true := trimRightL_eq_nil_iff.mp ht
        have h1 : trimLeftL t = [] := trimLeftL_eq_nil_of_all_ws hall
        rw [if_pos ht, if_pos hc, ← ih, ht]
      · rw [if_neg ht, trimLeftL_cons_of_ws _ hc, ih]
    · have hc2 : isAsciiWs c = false := by simpa using hc
      rw [trimLeftL_cons_of_not_ws t hc2, trimRightL_cons]
      by_cases ht : trimRightL t = []
      · rw [if_pos ht, if_neg hc, trimLeftL_cons_of_not_ws [] hc2]
      · rw [if_neg ht, trimLeftL_cons_of_not_ws _ hc2]

theorem trimL_trimLeft_trimRight (l : List Char) :
    trimL (trimLeftL (trimRightL l)) = trimL l := by
  unfold trimL
  rw [trimLeftL_idem, trimLeft_trimRight_comm, trimRightL_idem, ← trimLeft_trimRight_comm,
    trimLeft_trimRight_comm]

theorem isPrefixOf_append_self (P Q : List Char) : P.isPrefixOf (P ++ Q) = true := by
  induction P with
  | nil => simp [List.isPrefixOf]
  | cons c t ih => simp [List.isPrefixOf, ih]

/-- Index list of every position at which pat occurs as a substring. -/
def subMatches (pat l : List Char) : List Nat :=
  (List.range (l.length + 1)).filter (fun i => pat.isPrefixOf (l.drop i))

/-- Rust str::find for a literal pattern (first match index). -/
def findSub (pat l : List Char) : Option Nat := (subMatches pat l).head?

/-- Rust str::rfind for a literal pattern (last match index). -/
def rfindSub (pat l : List Char) : Option Nat := (subMatches pat l).getLast?

/- ## Reminder parser (src/pocketbase_chat.rs)

Embeds parse_leading_delay, normalize_reminder_message and the three
reminder recognizers. A chrono Duration is represented by its length in
seconds as an Int; the i64 overflow failure of the digit parse is kept. -/

/-- A parsed reminder: message, delay in seconds, human-readable delay. -/
structure ReminderIntent where
  message : String
  delay : Int
  delay_human : String
deriving DecidableEq, Repr

def i64Max : Nat := 9223372036854775807

/-- The unit table of parse_leading_delay: seconds per unit and label. -/
def unit_seconds (unit : String) : Option (Int × String) :=
  if unit = "s" ∨ unit = "sec" ∨ unit = "secs" ∨ unit = "second" ∨ unit = "seconds" then
    some (1, "second")
  else if unit = "m" ∨ unit = "min" ∨ unit = "mins" ∨ unit = "minute" ∨ unit = "minutes" then
    some (60, "minute")
  else if unit = "h" ∨ unit = "hr" ∨ unit = "hrs" ∨ unit = "hour" ∨ unit = "hours" then
    some (3600, "hour")
  else if unit = "d" ∨ unit = "day" ∨ unit = "days" then
    some (86400, "day")
  else none

/-- parse_leading_delay: leading digits, then a unit word, then the rest.
Returns (delay seconds, human label, remaining input). -/
def parse_leading_delay (input : List Char) : Option (Int × String × List Char) :=
  let s := trimLeftL input
  let digits := s.takeWhile isAsciiDigit
  if digits.length = 0 then none
  else
    let amountN := digitsToNat digits
    if amountN > i64Max then none
    else if amountN = 0 then none
    else
      let after_num := trimLeftL (s.drop digits.length)
      let unit_raw := after_num.takeWhile isAsciiAlpha
      if unit_raw.length = 0 then none
      else
        let rest := trimLeftL (after_num.drop unit_raw.length)
        match unit_seconds (String.mk (lowerL unit_raw)) with
        | none => none
        | some (unitSecs, label) =>
          let plural := if amountN = 1 then "" else "s"
          let human := toString amountN ++ " " ++ label ++ plural
          some ((amountN : Int) * unitSecs, human, rest)

def isTrailingPunct (c : Char) : Bool :=
  c = '.' || c = '!' || c = '?' || c = ',' || c = ';'

/-- normalize_reminder_message: trim, strip a leading "about "/"to ",
strip trailing punctuation, trim again. -/
def normalize_reminder_message (raw : List Char) : List Char :=
  let text := trimL raw
  if text.isEmpty then []
  else
    let text :=
      if decide (text.length ≥ 6) && eqIgnoreAsciiCase (text.take 6) ("about ".data) then
        trimL (text.drop 6)
      else if decide (text.length ≥ 3) && eqIgnoreAsciiCase (text.take 3) ("to ".data) then
        trimL (text.drop 3)
      else text
    trimL ((text.reverse.dropWhile isTrailingPunct).reverse)

/-- parse_slash_reminder_intent: leading "/remind " then delay then message. -/
def parse_slash_reminder_intent (input : String) : Option ReminderIntent :=
  let trimmed := trimL input.data
  let lower := lowerL trimmed
  if ¬ (("/remind ".data).isPrefixOf lower) then none
  else
    let rest := trimL (trimmed.drop 8)
    match parse_leading_delay rest with
    | none => none
    | some (delay, human, remainder) =>
      let message := normalize_reminder_message remainder
      if message.isEmpty then none
      else some ⟨String.mk message, delay, human⟩

/-- parse_natural_language_reminder_intent: needs "remind me" and the
last " in " as the delay boundary. -/
def parse_natural_language_reminder_intent (input : String) : Option ReminderIntent :=
  let trimmed := trimL input.data
  let lower := lowerL trimmed
  match findSub ("remind me".data) lower with
  | none => none
  | some remind_pos =>
    let remind_phrase_end := remind_pos + 9
    if remind_phrase_end > trimmed.length then none
    else
      let remind_tail := trimL (trimmed.drop remind_phrase_end)
      match rfindSub (" in ".data) lower with
      | none => none
      | some in_pos =>
        let head := trimL (trimmed.take in_pos)
        let tail := trimL (trimmed.drop (in_pos + 4))
        match parse_leading_delay tail with
        | none => none
        | some (delay, human, tail_after_delay) =>
          let message :=
            if head.length ≥ remind_phrase_end then
              normalize_reminder_message (head.drop remind_phrase_end)
            else normalize_reminder_message remind_tail
          let message :=
            if message.isEmpty then normalize_reminder_message tail_after_delay else message
          if message.isEmpty then none
          else some ⟨String.mk message, delay, human⟩

def reminderMarkers : List (List Char) :=
  ["set a reminder to", "set a reminder for", "set reminder to",
   "set reminder for", "reminder to", "reminder for"].map String.data

/-- The marker loop of parse_set_reminder_intent: the first marker found
in the lowercased input whose end lands inside head selects the message. -/
def markerMessage (lower head : List Char) : List (List Char) → List Char
  | [] => head
  | m :: rest =>
    match findSub m lower with
    | some pos =>
      let start := pos + m.length
      if start ≤ head.length then head.drop start else markerMessage lower head rest
    | none => markerMessage lower head rest

/-- parse_set_reminder_intent: needs "reminder" and a " in " boundary. -/
def parse_set_reminder_intent (input : String) : Option ReminderIntent :=
  let trimmed := trimL input.data
  let lower := lowerL trimmed
  if findSub ("reminder".data) lower = none then none
  else
    match rfindSub (" in ".data) lower with
    | none => none
    | some in_pos =>
      let head := trimL (trimmed.take in_pos)
      let tail := trimL (trimmed.drop (in_pos + 4))
      match parse_leading_delay tail with
      | none => none
      | some (delay, human, tail_after_delay) =>
        let message := normalize_reminder_message (markerMessage lower head reminderMarkers)
        let message :=
          if message.isEmpty then normalize_reminder_message tail_after_delay else message
        if message.isEmpty then none
        else some ⟨String.mk message, delay, human⟩

/-- parse_reminder_intent: the three recognizers in order. -/
def parse_reminder_intent (input : String) : Option ReminderIntent :=
  (parse_slash_reminder_intent input).orElse fun _ =>
    (parse_natural_language_reminder_intent input).orElse fun _ =>
      parse_set_reminder_intent input

example : parse_slash_reminder_intent "/remind 5m stretch" =
    some ⟨"stretch", 300, "5 minutes"⟩ := by decide

example : parse_reminder_intent "/remind 1m stretch" =
    some ⟨"stretch", 60, "1 minute"⟩ := by decide

theorem normalize_trimLeftL_trimRightL (msg : List Char) :
    normalize_reminder_message (trimLeftL (trimRightL msg)) = normalize_reminder_message msg := by
  unfold normalize_reminder_message
  rw [trimL_trimLeft_trimRight]

theorem trimRightL_ne_nil_of_normalize_ne_nil {msg : List Char}
    (h : normalize_reminder_message msg ≠ []) : trimRightL msg ≠ [] := by
  intro hnil
  apply h
  have hall := trimRightL_eq_nil_iff.mp hnil
  have h1 : trimLeftL msg = [] := trimLeftL_eq_nil_of_all_ws hall
  have h2 : trimL msg = [] := by rw [trimL, h1]; rfl
  unfold normalize_reminder_message
  rw [h2]
  simp

theorem trimLeftL_digit_head {d0 : Char} (hds : isAsciiDigit d0 = true) (X : List Char) :
    trimLeftL (d0 :: X) = d0 :: X :=
  trimLeftL_cons_of_not_ws X (not_ws_of_digit hds)

/-- parse_leading_delay on a well-formed delay token followed by a space. -/
theorem parse_leading_delay_structured (ds u T : List Char) (k : Int) (label : String)
    (hds : ds ≠ []) (hdig : ∀ c ∈ ds, isAsciiDigit c = true)
    (hpos : 0 < digitsToNat ds) (hbound : digitsToNat ds ≤ 1000000)
    (hu : u ≠ []) (halpha : ∀ c ∈ u, isAsciiAlpha c = true)
    (hunit : unit_seconds (String.mk (lowerL u)) = some (k, label)) :
    parse_leading_delay (ds ++ u ++ ' ' :: T) =
      some ((digitsToNat ds : Int) * k,
        toString (digitsToNat ds) ++ " " ++ label ++ (if digitsToNat ds = 1 then "" else "s"),
        trimLeftL T) := by
  obtain ⟨d0, ds2, rfl⟩ : ∃ d0 ds2, ds = d0 :: ds2 := by
    cases ds with
    | nil => exact absurd rfl hds
    | cons a b => exact ⟨a, b, rfl⟩
  obtain ⟨u0, u2, rfl⟩ : ∃ u0 u2, u = u0 :: u2 := by
    cases u with
    | nil => exact absurd rfl hu
    | cons a b => exact ⟨a, b, rfl⟩
  have hd0 : isAsciiDigit d0 = true := hdig d0 (by simp)
  have hu0 : isAsciiAlpha u0 = true := halpha u0 (by simp)
  have hstep1 : trimLeftL ((d0 :: ds2) ++ (u0 :: u2) ++ ' ' :: T) =
      (d0 :: ds2) ++ (u0 :: u2) ++ ' ' :: T := by
    rw [List.cons_append, List.cons_append, trimLeftL_digit_head hd0]
  have hdigits : List.takeWhile isAsciiDigit ((d0 :: ds2) ++ ((u0 :: u2) ++ ' ' :: T)) =
      d0 :: ds2 := by
    rw [List.takeWhile_append_of_pos hdig]
    simp [List.takeWhile_cons, not_digit_of_alpha hu0]
  have hafter : ((d0 :: ds2) ++ ((u0 :: u2) ++ ' ' :: T)).drop (d0 :: ds2).length =
      (u0 :: u2) ++ ' ' :: T := List.drop_left _ _
  have hafter2 : trimLeftL ((u0 :: u2) ++ ' ' :: T) = (u0 :: u2) ++ ' ' :: T := by
    rw [List.cons_append, trimLeftL_cons_of_not_ws _ (not_ws_of_alpha hu0)]
  have hunitTake : List.takeWhile isAsciiAlpha ((u0 :: u2) ++ ' ' :: T) = u0 :: u2 := by
    rw [List.takeWhile_append_of_pos halpha]
    have hsp : isAsciiAlpha ' ' = false := by decide
    simp [List.takeWhile_cons, hsp]
  have hrest : ((u0 :: u2) ++ ' ' :: T).drop (u0 :: u2).length = ' ' :: T :=
    List.drop_left _ _
  have hrest2 : trimLeftL (' ' :: T) = trimLeftL T :=
    trimLeftL_cons_of_ws T (by decide)
  have hnotbig : ¬ (digitsToNat (d0 :: ds2) > i64Max) := by
    unfold i64Max
    omega
  have hnotzero : ¬ (digitsToNat (d0 :: ds2) = 0) := by omega
  unfold parse_leading_delay
  simp only [List.append_assoc] at hstep1 ⊢
  rw [hstep1, hdigits]
  rw [if_neg (by simp)]
  rw [if_neg hnotbig, if_neg hnotzero]
  simp only [List.append_assoc] at hafter
  rw [hafter, hafter2, hunitTake, hrest, hrest2]
  rw [if_neg (by simp)]
  rw [hunit]

/-- Evaluation rule for parse_slash_reminder_intent given the values of
its intermediate computations. -/
theorem parse_slash_eval (input : String) (T rem M : List Char) (d : Int) (hm : String)
    (h1 : trimL input.data = T)
    (h2 : ("/remind ".data).isPrefixOf (lowerL T) = true)
    (h3 : parse_leading_delay (trimL (T.drop 8)) = some (d, hm, rem))
    (h4 : normalize_reminder_message rem = M)
    (h5 : M.isEmpty = false) :
    parse_slash_reminder_intent input = some ⟨String.mk M, d, hm⟩ := by
  unfold parse_slash_reminder_intent
  rw [h1, if_neg (not_not_intro h2)]
  simp only [h3, h4, h5]
  simp

/-- C7: the slash-reminder parser. Concretely, "/remind 5m stretch"
yields delay 300 seconds, message "stretch" and human label "5 minutes".
In general, a leading "/remind " followed by a positive digit token
(bounded so that the i64 parse and the chrono duration cannot
overflow), a unit word from the unit table, a space and a remainder
that normalizes to a non-empty message yields the intent whose delay is
amount times the unit seconds and whose message is the normalized
remainder. -/
theorem c7_slash_reminder_roundtrip :
    parse_slash_reminder_intent "/remind 5m stretch" =
      some ⟨"stretch", 300, "5 minutes"⟩ ∧
    ∀ (ds u msg : List Char) (k : Int) (label : String),
      ds ≠ [] → (∀ c ∈ ds, isAsciiDigit c = true) →
      0 < digitsToNat ds → digitsToNat ds ≤ 1000000 →
      u ≠ [] → (∀ c ∈ u, isAsciiAlpha c = true) →
      unit_seconds (String.mk (lowerL u)) = some (k, label) →
      normalize_reminder_message msg ≠ [] →
      parse_slash_reminder_intent (String.mk ("/remind ".data ++ ds ++ u ++ ' ' :: msg)) =
        some ⟨String.mk (normalize_reminder_message msg),
          (digitsToNat ds : Int) * k,
          toString (digitsToNat ds) ++ " " ++ label ++
            (if digitsToNat ds = 1 then "" else "s")⟩ := by
  refine ⟨by decide, ?_⟩
  intro ds u msg k label hds hdig hpos hbound hu halpha hunit hmsg
  have hR : trimRightL msg ≠ [] := trimRightL_ne_nil_of_normalize_ne_nil hmsg
  have hRidem : trimRightL (trimRightL msg) = trimRightL msg := trimRightL_idem msg
  obtain ⟨d0, ds2, rfl⟩ : ∃ d0 ds2, ds = d0 :: ds2 := by
    cases ds with
    | nil => exact absurd rfl hds
    | cons a b => exact ⟨a, b, rfl⟩
  have hd0 : isAsciiDigit d0 = true := hdig d0 (by simp)
  have hlit : ("/remind ".data : List Char) = '/' :: "remind ".data := rfl
  -- the trimmed input
  have htrim : trimL ("/remind ".data ++ (d0 :: ds2) ++ u ++ ' ' :: msg) =
      "/remind ".data ++ (d0 :: ds2) ++ u ++ ' ' :: trimRightL msg := by
    have hTR : trimRightL (("/remind ".data ++ (d0 :: ds2) ++ u ++ [' ']) ++ msg) =
        ("/remind ".data ++ (d0 :: ds2) ++ u ++ [' ']) ++ trimRightL msg :=
      trimRightL_append _ msg hR
    have hTL : trimLeftL ("/remind ".data ++ (d0 :: ds2) ++ u ++ ' ' :: msg) =
        "/remind ".data ++ (d0 :: ds2) ++ u ++ ' ' :: msg := by
      rw [hlit]
      simp only [List.cons_append]
      exact trimLeftL_cons_of_not_ws _ (by decide)
    rw [trimL, hTL]
    simp only [List.append_assoc, List.cons_append, List.nil_append] at hTR ⊢
    exact hTR
  -- the lowercased trimmed input keeps the slash prefix
  have hlow : ("/remind ".data).isPrefixOf
      (lowerL ("/remind ".data ++ (d0 :: ds2) ++ u ++ ' ' :: trimRightL msg)) = true := by
    have h1 : lowerL ("/remind ".data ++ ((d0 :: ds2) ++ (u ++ ' ' :: trimRightL msg))) =
        lowerL ("/remind ".data) ++ lowerL ((d0 :: ds2) ++ (u ++ ' ' :: trimRightL msg)) := by
      simp [lowerL]
    have h2 : lowerL ("/remind ".data) = "/remind ".data := by decide
    simp only [List.append_assoc] at h1 ⊢
    rw [h1, h2]
    exact isPrefixOf_append_self _ _
  -- dropping the command prefix
  have hdrop : ("/remind ".data ++ (d0 :: ds2) ++ u ++ ' ' :: trimRightL msg).drop 8 =
      (d0 :: ds2) ++ u ++ ' ' :: trimRightL msg := by
    have h8 : ("/remind ".data).length = 8 := rfl
    have := List.drop_left ("/remind ".data)
      ((d0 :: ds2) ++ (u ++ ' ' :: trimRightL msg))
    rw [h8] at this
    simp only [List.append_assoc] at this ⊢
    exact this
  -- trimming the rest is a no-op
  have hrest : trimL ((d0 :: ds2) ++ u ++ ' ' :: trimRightL msg) =
      (d0 :: ds2) ++ u ++ ' ' :: trimRightL msg := by
    have hTL : trimLeftL ((d0 :: ds2) ++ u ++ ' ' :: trimRightL msg) =
        (d0 :: ds2) ++ u ++ ' ' :: trimRightL msg := by
      simp only [List.cons_append]
      exact trimLeftL_cons_of_not_ws _ (not_ws_of_digit hd0)
    have hTR : trimRightL (((d0 :: ds2) ++ u ++ [' ']) ++ trimRightL msg) =
        ((d0 :: ds2) ++ u ++ [' ']) ++ trimRightL (trimRightL msg) :=
      trimRightL_append _ _ (by rw [hRidem]; exact hR)
    rw [trimL, hTL]
    rw [hRidem] at hTR
    simp only [List.append_assoc, List.cons_append, List.nil_append] at hTR ⊢
    exact hTR
  have hdelay := parse_leading_delay_structured (d0 :: ds2) u (trimRightL msg) k label
    hds hdig hpos hbound hu halpha hunit
  have hmsgnorm : normalize_reminder_message (trimLeftL (trimRightL msg)) =
      normalize_reminder_message msg := normalize_trimLeftL_trimRightL msg
  have hmsgE : (normalize_reminder_message msg).isEmpty = false := by
    rcases h : (normalize_reminder_message msg).isEmpty with _ | _
    · rfl
    · exact absurd (List.isEmpty_iff.mp h) hmsg
  refine parse_slash_eval _ _ _ _ _ _ htrim hlow ?_ hmsgnorm hmsgE
  rw [hdrop, hrest]
  exact hdelay

theorem c7_slash_reminder_roundtrip_witness :
    parse_slash_reminder_intent
        (String.mk ("/remind ".data ++ "5".data ++ "m".data ++ ' ' :: "stretch".data)) =
      some ⟨"stretch", 300, "5 minutes"⟩ := by
  have h := c7_slash_reminder_roundtrip.2 "5".data "m".data "stretch".data 60 "minute"
    (by decide) (by decide) (by decide) (by decide) (by decide) (by decide) (by decide)
    (by decide)
  rw [h]
  decide

/- ## Sliding-window rate limiter (src/gateway/mod.rs)

The Rust limiter keys a HashMap of timestamp vectors by client key. The
HashMap is modelled as an association list in insertion order; Instants
are Nat seconds. checked_sub falling back to Instant::now is modelled by
cutoff = now when now is smaller than the window. -/

structure SlidingWindowRateLimiter where
  limit_per_window : Nat
  window : Nat
  max_keys : Nat
deriving DecidableEq, Repr

/-- SlidingWindowRateLimiter::new clamps max_keys to at least 1. -/
def SlidingWindowRateLimiter.new (limit window maxKeys : Nat) : SlidingWindowRateLimiter :=
  ⟨limit, window, max maxKeys 1⟩

structure RLState where
  requests : List (String × List Nat)
  last_sweep : Nat
deriving DecidableEq, Repr

def lookupEntry (m : List (String × List Nat)) (key : String) : Option (List Nat) :=
  (m.find? (fun kv => kv.1 == key)).map Prod.snd

def containsKey (m : List (String × List Nat)) (key : String) : Bool :=
  (m.find? (fun kv => kv.1 == key)).isSome

def setEntry : List (String × List Nat) → String → List Nat → List (String × List Nat)
  | [], key, v => [(key, v)]
  | kv :: rest, key, v => if kv.1 == key then (key, v) :: rest else kv :: setEntry rest key v

def removeKey (m : List (String × List Nat)) (key : String) : List (String × List Nat) :=
  m.filter (fun kv => !(kv.1 == key))

/-- prune_stale: drop every timestamp at or before the cutoff, then drop
now-empty keys. -/
def prune_stale (requests : List (String × List Nat)) (cutoff : Nat) :
    List (String × List Nat) :=
  (requests.map (fun kv => (kv.1, kv.2.filter (fun t => decide (cutoff < t))))).filter
    (fun kv => !kv.2.isEmpty)

/-- The most recent timestamp of an entry, with the cutoff standing in
for an empty vector (timestamps.last().copied().unwrap_or(cutoff)). -/
def lastOr (ts : List Nat) (cutoff : Nat) : Nat := ts.getLast?.getD cutoff

/-- The eviction choice of allow: the key whose most recent timestamp is
smallest (first of equal minima, as Iterator::min_by_key returns). -/
def evict_candidate (requests : List (String × List Nat)) (cutoff : Nat) : Option String :=
  match requests with
  | [] => none
  | kv :: rest =>
    some ((rest.foldl (fun best kv2 =>
      if lastOr kv2.2 cutoff < lastOr best.2 cutoff then kv2 else best) kv).1)

/-- SlidingWindowRateLimiter::allow with the clock passed explicitly. -/
def SlidingWindowRateLimiter.allow (rl : SlidingWindowRateLimiter) (st : RLState)
    (now : Nat) (key : String) : Bool × RLState :=
  if rl.limit_per_window = 0 then (true, st)
  else
    let cutoff := if rl.window ≤ now then now - rl.window else now
    let sweep1 :=
      if 300 ≤ now - st.last_sweep then (prune_stale st.requests cutoff, now)
      else (st.requests, st.last_sweep)
    let sweep2 :=
      if containsKey sweep1.1 key = false ∧ rl.max_keys ≤ sweep1.1.length then
        let pruned := prune_stale sweep1.1 cutoff
        let afterEvict :=
          if rl.max_keys ≤ pruned.length then
            match evict_candidate pruned cutoff with
            | some evictKey => removeKey pruned evictKey
            | none => pruned
          else pruned
        (afterEvict, now)
      else sweep1
    let entry := ((lookupEntry sweep2.1 key).getD []).filter (fun t => decide (cutoff < t))
    if rl.limit_per_window ≤ entry.length then
      (false, ⟨setEntry sweep2.1 key entry, sweep2.2⟩)
    else
      (true, ⟨setEntry sweep2.1 key (entry ++ [now]), sweep2.2⟩)

/-- A sequence of allow calls for one fixed key at given times. -/
def allowRun (rl : SlidingWindowRateLimiter) (st : RLState) (key : String) :
    List Nat → List Bool × RLState
  | [] => ([], st)
  | t :: ts =>
    let step := rl.allow st t key
    let rest := allowRun rl step.2 key ts
    (step.1 :: rest.1, rest.2)

/-- A sequence of allow calls with arbitrary keys. -/
def allowSeq (rl : SlidingWindowRateLimiter) (st : RLState) :
    List (Nat × String) → RLState
  | [] => st
  | c :: cs => allowSeq rl (rl.allow st c.1 c.2).2 cs

example :
    (allowRun (SlidingWindowRateLimiter.new 2 60 10) ⟨[], 0⟩ "k" [60, 61, 62]).1 =
      [true, true, false] := by decide

example :
    ((SlidingWindowRateLimiter.new 0 60 10).allow ⟨[], 0⟩ 100 "k").1 = true := by decide

theorem allow_empty_step (rl : SlidingWindowRateLimiter) (key : String) (ls now : Nat)
    (hlim : 0 < rl.limit_per_window) (hmax : 1 ≤ rl.max_keys) :
    rl.allow ⟨[], ls⟩ now key =
      (true, ⟨[(key, [now])], if 300 ≤ now - ls then now else ls⟩) := by
  have h0 : ¬ rl.limit_per_window = 0 := by omega
  have h1 : ¬ rl.max_keys ≤ (0 : Nat) := by omega
  unfold SlidingWindowRateLimiter.allow
  rw [if_neg h0]
  by_cases hsweep : 300 ≤ now - ls <;>
    simp [hsweep, prune_stale, containsKey, List.find?, lookupEntry, h0, h1, setEntry,
      if_neg (by omega : ¬ rl.limit_per_window ≤ (0 : Nat))]

theorem allow_single_key_step (rl : SlidingWindowRateLimiter) (key : String)
    (hist : List Nat) (ls now : Nat)
    (hlim : 0 < rl.limit_per_window)
    (hw : rl.window ≤ now)
    (hhist : hist ≠ [])
    (hh : ∀ h ∈ hist, h ≤ now ∧ now - h < rl.window) :
    rl.allow ⟨[(key, hist)], ls⟩ now key =
      (decide (hist.length < rl.limit_per_window),
       ⟨[(key, if hist.length < rl.limit_per_window then hist ++ [now] else hist)],
        if 300 ≤ now - ls then now else ls⟩) := by
  have h0 : ¬ rl.limit_per_window = 0 := by omega
  have hcut : (if rl.window ≤ now then now - rl.window else now) = now - rl.window := if_pos hw
  have hfilter : hist.filter (fun t => decide (now - rl.window < t)) = hist := by
    refine List.filter_eq_self.mpr ?_
    intro h hm
    have := hh h hm
    simp only [decide_eq_true_eq]
    omega
  have hprune : prune_stale [(key, hist)] (now - rl.window) = [(key, hist)] := by
    simp [prune_stale, hfilter, hhist]
  have hcontains : containsKey [(key, hist)] key = true := by
    simp [containsKey, List.find?]
  have hlook : lookupEntry [(key, hist)] key = some hist := by
    simp [lookupEntry, List.find?]
  have hset : ∀ v, setEntry [(key, hist)] key v = [(key, v)] := by
    intro v
    simp [setEntry]
  unfold SlidingWindowRateLimiter.allow
  rw [if_neg h0]
  by_cases hfull : rl.limit_per_window ≤ hist.length
  · by_cases hsweep : 300 ≤ now - ls <;>
      simp [hcut, hsweep, hprune, hcontains, hlook, hset, hfilter, hfull,
        Nat.not_lt.mpr hfull]
  · by_cases hsweep : 300 ≤ now - ls <;>
      simp [hcut, hsweep, hprune, hcontains, hlook, hset, hfilter, hfull,
        Nat.not_le.mp hfull]

theorem allowRun_single_key (rl : SlidingWindowRateLimiter) (key : String)
    (hlim : 0 < rl.limit_per_window) (ts : List Nat) :
    ∀ (hist : List Nat) (ls : Nat),
      hist ≠ [] →
      (∀ h ∈ hist, ∀ t ∈ ts, h ≤ t ∧ t - h < rl.window) →
      (∀ t ∈ ts, rl.window ≤ t) →
      List.Pairwise (· ≤ ·) ts →
      (∀ a ∈ ts, ∀ b ∈ ts, a - b < rl.window) →
      (allowRun rl ⟨[(key, hist)], ls⟩ key ts).1 =
        (List.range ts.length).map
          (fun i => decide (hist.length + i < rl.limit_per_window)) := by
  induction ts with
  | nil =>
    intro hist ls _ _ _ _ _
    simp [allowRun]
  | cons t ts ih =>
    intro hist ls hhist hh hw hpair hwin
    have hstep := allow_single_key_step rl key hist ls t hlim (hw t (by simp)) hhist
      (fun h hm => hh h hm t (by simp))
    have hexp : (allowRun rl ⟨[(key, hist)], ls⟩ key (t :: ts)).1 =
        (decide (hist.length < rl.limit_per_window)) ::
          (allowRun rl ⟨[(key, if hist.length < rl.limit_per_window
              then hist ++ [t] else hist)],
            if 300 ≤ t - ls then t else ls⟩ key ts).1 := by
      simp only [allowRun, hstep]
    rw [hexp]
    have hhead : ∀ u ∈ ts, t ≤ u := fun u hu => (List.pairwise_cons.mp hpair).1 u hu
    have hsubts : ∀ h ∈ (if hist.length < rl.limit_per_window then hist ++ [t] else hist),
        ∀ u ∈ ts, h ≤ u ∧ u - h < rl.window := by
      intro h hm u hu
      by_cases hc : hist.length < rl.limit_per_window
      · rw [if_pos hc] at hm
        rcases List.mem_append.mp hm with hold | hnew
        · exact hh h hold u (by simp [hu])
        · have heq : h = t := by simpa using hnew
          subst heq
          exact ⟨hhead u hu, hwin u (by simp [hu]) h (by simp)⟩
      · rw [if_neg hc] at hm
        exact hh h hm u (by simp [hu])
    have hne : (if hist.length < rl.limit_per_window then hist ++ [t] else hist) ≠ [] := by
      by_cases hc : hist.length < rl.limit_per_window <;> simp [hc, hhist]
    have hrec := ih _ (if 300 ≤ t - ls then t else ls) hne hsubts
      (fun u hu => hw u (by simp [hu])) (List.Pairwise.of_cons hpair)
      (fun a ha b hb => hwin a (by simp [ha]) b (by simp [hb]))
    by_cases hc : hist.length < rl.limit_per_window
    · rw [if_pos hc] at hrec ⊢
      rw [hrec]
      have htail : List.map
          ((fun i => decide (hist.length + i < rl.limit_per_window)) ∘ Nat.succ)
          (List.range ts.length) =
          List.map (fun i => decide ((hist ++ [t]).length + i < rl.limit_per_window))
            (List.range ts.length) := by
        refine List.map_congr_left ?_
        intro i _
        simp only [Function.comp_apply, List.length_append, List.length_cons,
          List.length_nil, decide_eq_decide]
        omega
      simp only [List.length_cons, List.range_succ_eq_map, List.map_cons, List.map_map]
      rw [htail]
      simp [hc]
    · rw [if_neg hc] at hrec ⊢
      rw [hrec]
      have htail : List.map
          ((fun i => decide (hist.length + i < rl.limit_per_window)) ∘ Nat.succ)
          (List.range ts.length) =
          List.map (fun i => decide (hist.length + i < rl.limit_per_window))
            (List.range ts.length) := by
        refine List.map_congr_left ?_
        intro i _
        simp only [Function.comp_apply, decide_eq_decide]
        omega
      simp only [List.length_cons, List.range_succ_eq_map, List.map_cons, List.map_map]
      rw [htail]
      simp [hc]

theorem new_limit (l w m : Nat) :
    (SlidingWindowRateLimiter.new l w m).limit_per_window = l := rfl

theorem new_window (l w m : Nat) : (SlidingWindowRateLimiter.new l w m).window = w := rfl

theorem new_max_keys (l w m : Nat) :
    (SlidingWindowRateLimiter.new l w m).max_keys = max m 1 := rfl

/-- C4 (amended): for a fixed key and a positive limit, when the calls
for that key happen at nondecreasing times that all lie within one
sliding window of each other (and at least one window after process
start, so the saturating cutoff is exact), the n-th call returns false
iff n exceeds the limit. A configured limit of zero instead disables
limiting, so allow returns true there. -/
theorem c4_rate_limiter_monotone_amended (limit window maxKeys t0 : Nat) (key : String)
    (ts : List Nat)
    (hlim : 0 < limit)
    (hpair : List.Pairwise (· ≤ ·) ts)
    (hw : ∀ t ∈ ts, window ≤ t)
    (hwin : ∀ a ∈ ts, ∀ b ∈ ts, a - b < window) :
    (allowRun (SlidingWindowRateLimiter.new limit window maxKeys) ⟨[], t0⟩ key ts).1 =
      (List.range ts.length).map (fun i => decide (i + 1 ≤ limit)) := by
  cases ts with
  | nil => simp [allowRun]
  | cons t ts2 =>
    have hmax : 1 ≤ (SlidingWindowRateLimiter.new limit window maxKeys).max_keys := by
      rw [new_max_keys]
      omega
    have hempty := allow_empty_step (SlidingWindowRateLimiter.new limit window maxKeys)
      key t0 t hlim hmax
    have hexp : (allowRun (SlidingWindowRateLimiter.new limit window maxKeys)
        ⟨[], t0⟩ key (t :: ts2)).1 =
        true :: (allowRun (SlidingWindowRateLimiter.new limit window maxKeys)
          ⟨[(key, [t])], if 300 ≤ t - t0 then t else t0⟩ key ts2).1 := by
      simp only [allowRun, hempty]
    rw [hexp]
    have hrec := allowRun_single_key (SlidingWindowRateLimiter.new limit window maxKeys)
      key hlim ts2 [t] (if 300 ≤ t - t0 then t else t0) (by simp)
      (fun h hm u hu => by
        have heq : h = t := by simpa using hm
        subst heq
        exact ⟨(List.pairwise_cons.mp hpair).1 u hu, hwin u (by simp [hu]) h (by simp)⟩)
      (fun u hu => hw u (by simp [hu]))
      (List.Pairwise.of_cons hpair)
      (fun a ha b hb => hwin a (by simp [ha]) b (by simp [hb]))
    rw [hrec]
    have htail : List.map
        ((fun i => decide (i + 1 ≤ limit)) ∘ Nat.succ) (List.range ts2.length) =
        List.map (fun i => decide (([t] : List Nat).length + i <
          (SlidingWindowRateLimiter.new limit window maxKeys).limit_per_window))
          (List.range ts2.length) := by
      refine List.map_congr_left ?_
      intro i _
      simp only [Function.comp_apply, List.length_cons, List.length_nil,
        new_limit, decide_eq_decide]
      omega
    simp only [List.length_cons, List.range_succ_eq_map, List.map_cons, List.map_map]
    rw [htail]
    simp [hlim]
    omega

/-- C4 counterexample: with a configured limit of zero the first call
(n = 1 > 0 = limit) returns true, not false, so the n-th call does not
return false iff n exceeds the limit for every configured limit. -/
theorem c4_zero_limit_counterexample :
    ¬ ((((SlidingWindowRateLimiter.new 0 60 10).allow ⟨[], 0⟩ 100 "k").1 = false) ↔ 1 > 0) := by
  decide

theorem c4_rate_limiter_monotone_amended_witness :
    (allowRun (SlidingWindowRateLimiter.new 2 60 10) ⟨[], 0⟩ "k" [60, 61, 62]).1 =
      [true, true, false] := by
  have h := c4_rate_limiter_monotone_amended 2 60 10 0 "k" [60, 61, 62] (by decide)
    (by decide) (by decide) (by decide)
  rw [h]
  decide

theorem length_prune_stale_le (m : List (String × List Nat)) (c : Nat) :
    (prune_stale m c).length ≤ m.length := by
  calc (prune_stale m c).length
      ≤ (m.map (fun kv => (kv.1, kv.2.filter (fun t => decide (c < t))))).length :=
        List.length_filter_le _ _
    _ = m.length := List.length_map _ _

theorem containsKey_iff (m : List (String × List Nat)) (k : String) :
    containsKey m k = true ↔ ∃ kv ∈ m, kv.1 = k := by
  simp [containsKey, List.find?_isSome]

theorem not_containsKey_prune {m : List (String × List Nat)} {c : Nat} {k : String}
    (h : containsKey m k = false) : containsKey (prune_stale m c) k = false := by
  rcases hc : containsKey (prune_stale m c) k with _ | _
  · rfl
  · rcases (containsKey_iff _ _).mp hc with ⟨kv, hkv, hk⟩
    have hkv2 := List.mem_filter.mp hkv
    rcases List.mem_map.mp hkv2.1 with ⟨kv0, hkv0, hmap⟩
    have : containsKey m k = true :=
      (containsKey_iff _ _).mpr ⟨kv0, hkv0, by rw [← hmap] at hk; exact hk⟩
    rw [h] at this
    exact absurd this (by simp)

theorem not_containsKey_removeKey {m : List (String × List Nat)} {k k2 : String}
    (h : containsKey m k = false) : containsKey (removeKey m k2) k = false := by
  rcases hc : containsKey (removeKey m k2) k with _ | _
  · rfl
  · rcases (containsKey_iff _ _).mp hc with ⟨kv, hkv, hk⟩
    have : containsKey m k = true :=
      (containsKey_iff _ _).mpr ⟨kv, (List.mem_filter.mp hkv).1, hk⟩
    rw [h] at this
    exact absurd this (by simp)

theorem length_setEntry_le (m : List (String × List Nat)) (k : String) (v : List Nat) :
    (setEntry m k v).length ≤ m.length + 1 := by
  induction m with
  | nil => simp [setEntry]
  | cons kv rest ih =>
    by_cases h : kv.1 == k
    · simp [setEntry, h]
    · simp [setEntry, h]
      omega

theorem length_setEntry_of_contains {m : List (String × List Nat)} {k : String}
    (v : List Nat) (h : containsKey m k = true) :
    (setEntry m k v).length = m.length := by
  induction m with
  | nil => simp [containsKey] at h
  | cons kv rest ih =>
    by_cases hk : kv.1 == k
    · simp [setEntry, hk]
    · have h2 : containsKey rest k = true := by
        simpa [containsKey, List.find?_cons, hk] using h
      simp [setEntry, hk, ih h2]

theorem length_removeKey_lt {m : List (String × List Nat)} {k : String}
    (h : containsKey m k = true) : (removeKey m k).length < m.length := by
  rcases (containsKey_iff _ _).mp h with ⟨kv, hkv, hk⟩
  refine List.length_filter_lt_length_iff_exists.mpr ⟨kv, hkv, ?_⟩
  simp [hk]

theorem evict_candidate_spec (m : List (String × List Nat)) (c : Nat) (k : String)
    (h : evict_candidate m c = some k) :
    ∃ ts, (k, ts) ∈ m ∧ ∀ kv ∈ m, lastOr ts c ≤ lastOr kv.2 c := by
  match m, h with
  | kv0 :: rest, h =>
    have key : ∀ (rest2 : List (String × List Nat)) (best : String × List Nat),
        (rest2.foldl (fun best kv2 =>
          if lastOr kv2.2 c < lastOr best.2 c then kv2 else best) best) ∈ best :: rest2 ∧
        ∀ kv ∈ best :: rest2,
          lastOr (rest2.foldl (fun best kv2 =>
            if lastOr kv2.2 c < lastOr best.2 c then kv2 else best) best).2 c ≤
            lastOr kv.2 c := by
      intro rest2
      induction rest2 with
      | nil =>
        intro best
        constructor
        · simp
        · intro kv hkv
          simp at hkv
          subst hkv
          exact le_refl _
      | cons x xs ih =>
        intro best
        have hstep : (if lastOr x.2 c < lastOr best.2 c then x else best) ∈ [best, x] ∧
            lastOr (if lastOr x.2 c < lastOr best.2 c then x else best).2 c ≤
              lastOr best.2 c ∧
            lastOr (if lastOr x.2 c < lastOr best.2 c then x else best).2 c ≤
              lastOr x.2 c := by
          by_cases hx : lastOr x.2 c < lastOr best.2 c
          · simp [hx]
            omega
          · simp [hx]
            omega
        rcases ih (if lastOr x.2 c < lastOr best.2 c then x else best) with ⟨hmem, hmin⟩
        constructor
        · simp only [List.foldl_cons]
          rcases List.mem_cons.mp hmem with h1 | h1
          · rw [h1]
            by_cases hx : lastOr x.2 c < lastOr best.2 c
            · simp [hx]
            · simp [hx]
          · simp [h1]
        · intro kv hkv
          simp only [List.foldl_cons]
          rcases List.mem_cons.mp hkv with h1 | h1
          · subst h1
            exact le_trans (hmin _ (by simp)) hstep.2.1
          · rcases List.mem_cons.mp h1 with h2 | h2
            · subst h2
              exact le_trans (hmin _ (by simp)) hstep.2.2
            · exact hmin _ (by simp [h2])
    rcases key rest kv0 with ⟨hmem, hmin⟩
    simp only [evict_candidate, Option.some.injEq] at h
    refine ⟨(rest.foldl (fun best kv2 =>
      if lastOr kv2.2 c < lastOr best.2 c then kv2 else best) kv0).2, ?_, ?_⟩
    · rw [← h]
      exact hmem
    · exact hmin

theorem setEntry_capacity {m : List (String × List Nat)} {key : String} {maxK : Nat}
    (v : List Nat)
    (h1 : m.length ≤ maxK) (h2 : containsKey m key = false → m.length < maxK) :
    (setEntry m key v).length ≤ maxK := by
  rcases hck : containsKey m key with _ | _
  · have ha := h2 hck
    have hb := length_setEntry_le m key v
    omega
  · rw [length_setEntry_of_contains v hck]
    exact h1

theorem allow_preserves_capacity (rl : SlidingWindowRateLimiter) (st : RLState)
    (now : Nat) (key : String) (hmax : 1 ≤ rl.max_keys)
    (h : st.requests.length ≤ rl.max_keys) :
    ((rl.allow st now key).2).requests.length ≤ rl.max_keys := by
  unfold SlidingWindowRateLimiter.allow
  by_cases h0 : rl.limit_per_window = 0
  · simp [h0, h]
  · rw [if_neg h0]
    simp only []
    set cutoff := if rl.window ≤ now then now - rl.window else now with hcut
    set m1 := if 300 ≤ now - st.last_sweep then (prune_stale st.requests cutoff, now)
      else (st.requests, st.last_sweep) with hm1
    have hm1len : m1.1.length ≤ rl.max_keys := by
      rw [hm1]
      split
      · exact le_trans (length_prune_stale_le _ _) h
      · exact h
    set m2 := if containsKey m1.1 key = false ∧ rl.max_keys ≤ m1.1.length then
        (let pruned := prune_stale m1.1 cutoff
         let afterEvict :=
           if rl.max_keys ≤ pruned.length then
             match evict_candidate pruned cutoff with
             | some evictKey => removeKey pruned evictKey
             | none => pruned
           else pruned
         (afterEvict, now))
      else m1 with hm2
    have hm2inv : m2.1.length ≤ rl.max_keys ∧
        (containsKey m2.1 key = false → m2.1.length < rl.max_keys) := by
      rw [hm2]
      by_cases hc2 : containsKey m1.1 key = false ∧ rl.max_keys ≤ m1.1.length
      · rw [if_pos hc2]
        simp only []
        have hplen : (prune_stale m1.1 cutoff).length ≤ rl.max_keys :=
          le_trans (length_prune_stale_le _ _) hm1len
        by_cases hc3 : rl.max_keys ≤ (prune_stale m1.1 cutoff).length
        · rw [if_pos hc3]
          rcases hev : evict_candidate (prune_stale m1.1 cutoff) cutoff with _ | evictKey
          · -- no candidate: the pruned map is empty
            have hempty : prune_stale m1.1 cutoff = [] := by
              rcases hp : prune_stale m1.1 cutoff with _ | ⟨kv, rest⟩
              · rfl
              · rw [hp] at hev
                simp [evict_candidate] at hev
            rw [hempty] at hc3
            simp at hc3
            omega
          · rcases evict_candidate_spec _ _ _ hev with ⟨ts, hmem, _⟩
            have hcont : containsKey (prune_stale m1.1 cutoff) evictKey = true :=
              (containsKey_iff _ _).mpr ⟨(evictKey, ts), hmem, rfl⟩
            have hlt := length_removeKey_lt hcont
            dsimp only
            constructor
            · omega
            · intro
              omega
        · rw [if_neg hc3]
          have hlt : (prune_stale m1.1 cutoff).length < rl.max_keys := by omega
          exact ⟨le_of_lt hlt, fun _ => hlt⟩
      · rw [if_neg hc2]
        rcases hck : containsKey m1.1 key with _ | _
        · have hlen : m1.1.length < rl.max_keys := by
            rcases not_and_or.mp hc2 with ha | ha
            · simp [hck] at ha
            · omega
          exact ⟨le_of_lt hlen, fun _ => hlen⟩
        · refine ⟨hm1len, fun hcontra => ?_⟩
          simp [hck] at hcontra
    split
    · exact setEntry_capacity _ hm2inv.1 hm2inv.2
    · exact setEntry_capacity _ hm2inv.1 hm2inv.2

theorem allowSeq_capacity (rl : SlidingWindowRateLimiter) (hmax : 1 ≤ rl.max_keys)
    (calls : List (Nat × String)) :
    ∀ st : RLState, st.requests.length ≤ rl.max_keys →
      (allowSeq rl st calls).requests.length ≤ rl.max_keys := by
  induction calls with
  | nil =>
    intro st h
    simpa [allowSeq] using h
  | cons c cs ih =>
    intro st h
    exact ih _ (allow_preserves_capacity rl st c.1 c.2 hmax h)

/-- C5: after every allow call the key map holds at most max_keys keys,
both as a preservation step from any compliant state and along any call
sequence from the empty initial map; and the eviction choice allow makes
when an absent key arrives at capacity picks a key of the swept map
whose most-recent timestamp is minimal among all tracked keys. -/
theorem c5_capacity_and_eviction :
    (∀ (rl : SlidingWindowRateLimiter) (st : RLState) (now : Nat) (key : String),
      1 ≤ rl.max_keys → st.requests.length ≤ rl.max_keys →
      ((rl.allow st now key).2).requests.length ≤ rl.max_keys) ∧
    (∀ (rl : SlidingWindowRateLimiter) (t0 : Nat) (calls : List (Nat × String)),
      1 ≤ rl.max_keys →
      (allowSeq rl ⟨[], t0⟩ calls).requests.length ≤ rl.max_keys) ∧
    (∀ (requests : List (String × List Nat)) (cutoff : Nat) (k : String),
      evict_candidate requests cutoff = some k →
      ∃ ts, (k, ts) ∈ requests ∧ ∀ kv ∈ requests, lastOr ts cutoff ≤ lastOr kv.2 cutoff) :=
  ⟨fun rl st now key hmax h => allow_preserves_capacity rl st now key hmax h,
   fun rl _ calls hmax => allowSeq_capacity rl hmax calls _ (by simp),
   fun requests cutoff k h => evict_candidate_spec requests cutoff k h⟩

theorem c5_capacity_and_eviction_witness :
    ((allowSeq (SlidingWindowRateLimiter.new 5 60 2) ⟨[], 0⟩
        [(100, "a"), (101, "b"), (102, "c")]).requests.length ≤
      (SlidingWindowRateLimiter.new 5 60 2).max_keys) ∧
    (∃ ts, ("a", ts) ∈ [("a", [5]), ("b", [9])] ∧
      ∀ kv ∈ [("a", [5]), ("b", [9])], lastOr ts 0 ≤ lastOr kv.2 0) :=
  ⟨c5_capacity_and_eviction.2.1 (SlidingWindowRateLimiter.new 5 60 2) 0
      [(100, "a"), (101, "b"), (102, "c")] (by decide),
   c5_capacity_and_eviction.2.2 [("a", [5]), ("b", [9])] 0 "a" (by decide)⟩

/- ## Idempotency memory and the webhook duplicate path (src/gateway/mod.rs)

IdempotencyStore keeps key -> insertion instant; record_if_new expires
entries older than the TTL, refuses known keys, evicts the oldest entry
at capacity and records new keys. The webhook handler consults it right
after body parsing and short-circuits duplicates before any downstream
work (memory auto-save, observer events, the provider call). -/

structure IdempotencyStore where
  ttl : Nat
  max_keys : Nat
deriving DecidableEq, Repr

/-- IdempotencyStore::new clamps max_keys to at least 1. -/
def IdempotencyStore.new (ttl maxKeys : Nat) : IdempotencyStore := ⟨ttl, max maxKeys 1⟩

abbrev IdemKeys := List (String × Nat)

/-- The eviction choice of record_if_new: entry with smallest seen_at. -/
def idem_evict_candidate (keys : IdemKeys) : Option String :=
  match keys with
  | [] => none
  | kv :: rest =>
    some ((rest.foldl (fun best kv2 => if kv2.2 < best.2 then kv2 else best) kv).1)

/-- IdempotencyStore::record_if_new with the clock passed explicitly. -/
def IdempotencyStore.record_if_new (store : IdempotencyStore) (keys : IdemKeys)
    (now : Nat) (key : String) : Bool × IdemKeys :=
  let keys := keys.filter (fun kv => decide (now - kv.2 < store.ttl))
  if (keys.find? (fun kv => kv.1 == key)).isSome then (false, keys)
  else
    let keys :=
      if store.max_keys ≤ keys.length then
        match idem_evict_candidate keys with
        | some evictKey => keys.filter (fun kv => !(kv.1 == evictKey))
        | none => keys
      else keys
    (true, keys ++ [(key, now)])

/-- Minimal JSON object model for the handler response bodies. -/
inductive JField where
  | str (s : String)
  | bool (b : Bool)
deriving DecidableEq, Repr

abbrev JObj := List (String × JField)

structure WebhookOutcome where
  status : Nat
  body : JObj
  provider_invoked : Bool
  keys : IdemKeys
deriving DecidableEq, Repr

/-- Key extraction from the X-Idempotency-Key header: to_str, trim,
drop when empty. -/
def idem_key_of_header (h : Option String) : Option String :=
  match h with
  | none => none
  | some s =>
    let t := String.mk (trimL s.data)
    if t = "" then none else some t

/-- The idempotency and dispatch slice of handle_webhook, entered after
rate limiting, bearer auth, the webhook secret and JSON parsing have all
passed. The provider call is an oracle; Ok becomes the 200 response with
the configured model, Err the sanitized 500. -/
def webhook_idempotency_slice (store : IdempotencyStore) (keys : IdemKeys) (now : Nat)
    (idemHeader : Option String) (message : String) (model : String)
    (provider : String → Except String String) : WebhookOutcome :=
  let dispatch : IdemKeys → WebhookOutcome := fun ks =>
    match provider message with
    | .ok resp => ⟨200, [("response", .str resp), ("model", .str model)], true, ks⟩
    | .error _ => ⟨500, [("error", .str "LLM request failed")], true, ks⟩
  match idem_key_of_header idemHeader with
  | some k =>
    let r := store.record_if_new keys now k
    if r.1 = false then
      ⟨200, [("status", .str "duplicate"), ("idempotent", .bool true),
        ("message", .str "Request already processed for this idempotency key")],
        false, r.2⟩
    else dispatch r.2
  | none => dispatch keys

theorem record_if_new_fresh (store : IdempotencyStore) (keys : IdemKeys)
    (now : Nat) (key : String) (h : ∀ kv ∈ keys, kv.1 ≠ key) :
    (store.record_if_new keys now key).1 = true ∧
    (key, now) ∈ (store.record_if_new keys now key).2 := by
  have hfind : ((keys.filter (fun kv => decide (now - kv.2 < store.ttl))).find?
      (fun kv => kv.1 == key)).isSome = false := by
    rcases hf : (keys.filter (fun kv => decide (now - kv.2 < store.ttl))).find?
        (fun kv => kv.1 == key) with _ | kv
    · simp [hf]
    · have hp := List.find?_some hf
      have hm := List.mem_of_find?_eq_some hf
      have := h kv (List.mem_filter.mp hm).1
      simp at hp
      exact absurd hp this
  simp only [IdempotencyStore.record_if_new, hfind]
  simp

theorem record_if_new_known (store : IdempotencyStore) (keys : IdemKeys)
    (now : Nat) (key : String) (seen : Nat)
    (hmem : (key, seen) ∈ keys) (httl : now - seen < store.ttl) :
    (store.record_if_new keys now key).1 = false := by
  have hmem2 : (key, seen) ∈ keys.filter (fun kv => decide (now - kv.2 < store.ttl)) :=
    List.mem_filter.mpr ⟨hmem, by simpa using httl⟩
  have hfind : ((keys.filter (fun kv => decide (now - kv.2 < store.ttl))).find?
      (fun kv => kv.1 == key)).isSome = true :=
    List.find?_isSome.mpr ⟨(key, seen), hmem2, by simp⟩
  simp only [IdempotencyStore.record_if_new, hfind]
  simp

/-- C3: two webhook POSTs carrying the same non-empty X-Idempotency-Key
within the idempotency TTL: the first (key not yet recorded) invokes the
provider and returns 200 with response and model; the second returns 200
with status duplicate and idempotent true without invoking the provider
or any downstream work. -/
theorem c3_duplicate_webhook (store : IdempotencyStore) (keys0 : IdemKeys)
    (t1 t2 : Nat) (hdr message model reply : String)
    (provider : String → Except String String)
    (hkey : String.mk (trimL hdr.data) ≠ "")
    (hfresh : ∀ kv ∈ keys0, kv.1 ≠ String.mk (trimL hdr.data))
    (httl : t2 - t1 < store.ttl)
    (hprov : provider message = .ok reply) :
    (webhook_idempotency_slice store keys0 t1 (some hdr) message model provider).status =
      200 ∧
    (webhook_idempotency_slice store keys0 t1 (some hdr) message model provider).body =
      [("response", JField.str reply), ("model", JField.str model)] ∧
    (webhook_idempotency_slice store keys0 t1 (some hdr) message model
      provider).provider_invoked = true ∧
    (webhook_idempotency_slice store
      (webhook_idempotency_slice store keys0 t1 (some hdr) message model provider).keys
      t2 (some hdr) message model provider).status = 200 ∧
    (webhook_idempotency_slice store
      (webhook_idempotency_slice store keys0 t1 (some hdr) message model provider).keys
      t2 (some hdr) message model provider).body =
      [("status", JField.str "duplicate"), ("idempotent", JField.bool true),
       ("message", JField.str "Request already processed for this idempotency key")] ∧
    (webhook_idempotency_slice store
      (webhook_idempotency_slice store keys0 t1 (some hdr) message model provider).keys
      t2 (some hdr) message model provider).provider_invoked = false := by
  have hhdr : idem_key_of_header (some hdr) = some (String.mk (trimL hdr.data)) := by
    simp [idem_key_of_header, hkey]
  have h1 := record_if_new_fresh store keys0 t1 (String.mk (trimL hdr.data)) hfresh
  have ho1 : webhook_idempotency_slice store keys0 t1 (some hdr) message model provider =
      ⟨200, [("response", JField.str reply), ("model", JField.str model)], true,
        (store.record_if_new keys0 t1 (String.mk (trimL hdr.data))).2⟩ := by
    simp only [webhook_idempotency_slice, hhdr, h1.1, hprov]
    simp
  have h2 := record_if_new_known store
    (store.record_if_new keys0 t1 (String.mk (trimL hdr.data))).2 t2
    (String.mk (trimL hdr.data)) t1 h1.2 httl
  have ho2 : webhook_idempotency_slice store
      (store.record_if_new keys0 t1 (String.mk (trimL hdr.data))).2 t2 (some hdr)
      message model provider =
      ⟨200, [("status", JField.str "duplicate"), ("idempotent", JField.bool true),
        ("message", JField.str "Request already processed for this idempotency key")],
        false,
        (store.record_if_new
          (store.record_if_new keys0 t1 (String.mk (trimL hdr.data))).2 t2
          (String.mk (trimL hdr.data))).2⟩ := by
    simp only [webhook_idempotency_slice, hhdr, h2]
    simp
  rw [ho1]
  refine ⟨rfl, rfl, rfl, ?_, ?_, ?_⟩ <;> simp only [] <;> rw [ho2]

theorem c3_duplicate_webhook_witness :
    (webhook_idempotency_slice (IdempotencyStore.new 600 100) [] 0 (some "abc-123")
      "hi" "m1" (fun _ => .ok "pong")).provider_invoked = true ∧
    (webhook_idempotency_slice (IdempotencyStore.new 600 100)
      (webhook_idempotency_slice (IdempotencyStore.new 600 100) [] 0 (some "abc-123")
        "hi" "m1" (fun _ => .ok "pong")).keys 10 (some "abc-123") "hi" "m1"
      (fun _ => .ok "pong")).provider_invoked = false := by
  have h := c3_duplicate_webhook (IdempotencyStore.new 600 100) [] 0 10 "abc-123" "hi"
    "m1" "pong" (fun _ => .ok "pong") (by decide) (by simp) (by decide) rfl
  exact ⟨h.2.2.1, h.2.2.2.2.2⟩

/- ## Client key derivation (src/gateway/mod.rs)

parse_client_ip delegates to the std FromStr parsers for IpAddr and
SocketAddr. Those parsers are external library code, so they enter the
embedding as an abstract interface already composed with Display: a
parsed address is represented by its canonical string rendering. -/

structure IpParsers where
  parseIp : String → Option String
  parseSock : String → Option String

/-- Rust str::split for a single-character separator. -/
def splitOnCharL (c : Char) : List Char → List (List Char)
  | [] => [[]]
  | x :: rest =>
    let r := splitOnCharL c rest
    if x = c then [] :: r
    else
      match r with
      | [] => [[x]]
      | h :: t => (x :: h) :: t

/-- Rust str::trim_matches for a character set: strip matching
characters from both ends. -/
def trimMatchesL (p : Char → Bool) (l : List Char) : List Char :=
  ((l.dropWhile p).reverse.dropWhile p).reverse

/-- parse_client_ip: trim, strip quotes, trim; then IpAddr, then
SocketAddr projected to its IP, then IpAddr after stripping brackets. -/
def parse_client_ip (P : IpParsers) (value : List Char) : Option String :=
  let v := trimL (trimMatchesL (fun c => c = '"') (trimL value))
  if v.isEmpty then none
  else
    match P.parseIp (String.mk v) with
    | some ip => some ip
    | none =>
      match P.parseSock (String.mk v) with
      | some ip => some ip
      | none =>
        let v2 := trimMatchesL (fun c => c = '[' || c = ']') v
        P.parseIp (String.mk v2)

structure ForwardHeaders where
  xForwardedFor : Option String
  xRealIp : Option String

/-- forwarded_client_ip: first parseable candidate of the comma-split
X-Forwarded-For list, else the parsed X-Real-IP. -/
def forwarded_client_ip (P : IpParsers) (h : ForwardHeaders) : Option String :=
  let fromXff :=
    match h.xForwardedFor with
    | some xff => (splitOnCharL ',' xff.data).findSome? (parse_client_ip P)
    | none => none
  match fromXff with
  | some ip => some ip
  | none => h.xRealIp.bind (fun v => parse_client_ip P v.data)

/-- client_key_from_request: forwarded headers only under
trust_forwarded_headers; peer IP otherwise; "unknown" without a peer. -/
def client_key_from_request (P : IpParsers) (peer_addr : Option String)
    (h : ForwardHeaders) (trust_forwarded_headers : Bool) : String :=
  if trust_forwarded_headers then
    match forwarded_client_ip P h with
    | some ip => ip
    | none => peer_addr.getD "unknown"
  else peer_addr.getD "unknown"

/-- The header candidate list named by the spec: all comma-separated
X-Forwarded-For entries, then X-Real-IP. -/
def headerCandidates (h : ForwardHeaders) : List (List Char) :=
  (match h.xForwardedFor with
   | some s => splitOnCharL ',' s.data
   | none => []) ++
  (match h.xRealIp with
   | some s => [s.data]
   | none => [])

theorem findSome?_append {α β : Type} (f : α → Option β) (a b : List α) :
    List.findSome? f (a ++ b) =
      match List.findSome? f a with
      | some x => some x
      | none => List.findSome? f b := by
  induction a with
  | nil => simp
  | cons x xs ih =>
    rcases hx : f x with _ | v
    · simpa [List.findSome?_cons, hx] using ih
    · simp [List.findSome?_cons, hx]

/-- C6: with trust off the derived client key is the peer IP (the
forwarded headers are never consulted — any two header sets agree), and
"unknown" without a peer; with trust on it is the first parseable IP
among the X-Forwarded-For entries followed by X-Real-IP when one exists,
else again the peer-based key. -/
theorem c6_client_key_derivation :
    (∀ (P : IpParsers) (peer : Option String) (h1 h2 : ForwardHeaders),
      client_key_from_request P peer h1 false = client_key_from_request P peer h2 false) ∧
    (∀ (P : IpParsers) (peer : Option String) (h : ForwardHeaders),
      client_key_from_request P peer h false = peer.getD "unknown") ∧
    (∀ (P : IpParsers) (peer : Option String) (h : ForwardHeaders) (ip : String),
      forwarded_client_ip P h = some ip →
      client_key_from_request P peer h true = ip) ∧
    (∀ (P : IpParsers) (peer : Option String) (h : ForwardHeaders),
      forwarded_client_ip P h = none →
      client_key_from_request P peer h true = peer.getD "unknown") ∧
    (∀ (P : IpParsers) (h : ForwardHeaders),
      forwarded_client_ip P h = (headerCandidates h).findSome? (parse_client_ip P)) := by
  refine ⟨?_, ?_, ?_, ?_, ?_⟩
  · intro P peer h1 h2
    simp [client_key_from_request]
  · intro P peer h
    simp [client_key_from_request]
  · intro P peer h ip hf
    simp [client_key_from_request, hf]
  · intro P peer h hf
    simp [client_key_from_request, hf]
  · intro P h
    unfold forwarded_client_ip headerCandidates
    rcases h with ⟨xff, xreal⟩
    rcases xff with _ | s
    · rcases xreal with _ | r
      · simp
      · simp [Option.bind, List.findSome?_cons]
        rcases parse_client_ip P r.data with _ | v <;> rfl
    · rw [findSome?_append]
      rcases hx : (splitOnCharL ',' s.data).findSome? (parse_client_ip P) with _ | v
      · rcases xreal with _ | r
        · simp [hx]
        · simp [hx, Option.bind, List.findSome?_cons]
          rcases parse_client_ip P r.data with _ | v <;> rfl
      · simp [hx]

/-- One dotted-quad segment per the std IPv4 grammar: decimal digits
only, no leading zero except "0" itself, at most 3 digits, value at most
255. -/
def rustIpv4Seg (s : List Char) : Option Nat :=
  match s with
  | [] => none
  | [c] => if isAsciiDigit c then some (c.toNat - 48) else none
  | c :: rest =>
    if c = '0' then none
    else if (c :: rest).all isAsciiDigit ∧ (c :: rest).length ≤ 3 then
      let v := digitsToNat (c :: rest)
      if v ≤ 255 then some v else none
    else none

/-- The std IPv4 address parser composed with Display: since the grammar
admits no leading zeros, the canonical rendering is the input itself. -/
def rustIpv4Parse (s : String) : Option String :=
  match splitOnCharL '.' s.data with
  | [a, b, c, d] =>
    match rustIpv4Seg a, rustIpv4Seg b, rustIpv4Seg c, rustIpv4Seg d with
    | some _, some _, some _, some _ =>
      some (String.mk (a ++ '.' :: b ++ '.' :: c ++ '.' :: d))
    | _, _, _, _ => none
  | _ => none

/-- IPv4-only instantiation of the std parser interface, enough for the
forwarded-header scenario (no IPv6, no socket addresses). -/
def ipv4Parsers : IpParsers := ⟨rustIpv4Parse, fun _ => none⟩

theorem c6_client_key_derivation_witness :
    client_key_from_request ipv4Parsers (some "10.0.0.5")
      ⟨some "198.51.100.10, 203.0.113.11", none⟩ false = "10.0.0.5" ∧
    client_key_from_request ipv4Parsers (some "10.0.0.5")
      ⟨some "198.51.100.10, 203.0.113.11", none⟩ true = "198.51.100.10" :=
  ⟨c6_client_key_derivation.2.1 ipv4Parsers (some "10.0.0.5")
      ⟨some "198.51.100.10, 203.0.113.11", none⟩,
   c6_client_key_derivation.2.2.1 ipv4Parsers (some "10.0.0.5")
      ⟨some "198.51.100.10, 203.0.113.11", none⟩ "198.51.100.10" (by decide)⟩

/- ## NextcloudTalk signature verification (src/channels/mod.rs,
src/gateway/mod.rs)

Modelled from the spec: hex(HMAC_SHA256(secret, random || body)) — the
hmac / sha2 crates the spec refers to are external library code outside
src/, so HMAC-SHA256 is implemented here from the standard (FIPS 180-4 /
RFC 2104) to state the claim. Byte strings are lists of Nats below 256;
string payloads are taken character-wise (exact for ASCII inputs). -/

def w32 (n : Nat) : Nat := n % 4294967296

def rotr32 (x k : Nat) : Nat := w32 ((x >>> k) ||| (x <<< (32 - k)))

def smallSigma0 (x : Nat) : Nat := (rotr32 x 7) ^^^ (rotr32 x 18) ^^^ (x >>> 3)

def smallSigma1 (x : Nat) : Nat := (rotr32 x 17) ^^^ (rotr32 x 19) ^^^ (x >>> 10)

def bigSigma0 (x : Nat) : Nat := (rotr32 x 2) ^^^ (rotr32 x 13) ^^^ (rotr32 x 22)

def bigSigma1 (x : Nat) : Nat := (rotr32 x 6) ^^^ (rotr32 x 11) ^^^ (rotr32 x 25)

def chF (x y z : Nat) : Nat := (x &&& y) ^^^ ((x ^^^ 4294967295) &&& z)

def majF (x y z : Nat) : Nat := (x &&& y) ^^^ (x &&& z) ^^^ (y &&& z)

def sha256K : List Nat :=
  [1116352408, 1899447441, 3049323471, 3921009573, 961987163,
   1508970993, 2453635748, 2870763221, 3624381080, 310598401,
   607225278, 1426881987, 1925078388, 2162078206, 2614888103,
   3248222580, 3835390401, 4022224774, 264347078, 604807628,
   770255983, 1249150122, 1555081692, 1996064986, 2554220882,
   2821834349, 2952996808, 3210313671, 3336571891, 3584528711,
   113926993, 338241895, 666307205, 773529912, 1294757372,
   1396182291, 1695183700, 1986661051, 2177026350, 2456956037,
   2730485921, 2820302411, 3259730800, 3345764771, 3516065817,
   3600352804, 4094571909, 275423344, 430227734, 506948616,
   659060556, 883997877, 958139571, 1322822218, 1537002063,
   1747873779, 1955562222, 2024104815, 2227730452, 2361852424,
   2428436474, 2756734187, 3204031479, 3329325298]

def sha256Init : List Nat :=
  [1779033703, 3144134277, 1013904242, 2773480762, 1359893119,
   2600822924, 528734635, 1541459225]

/-- Big-endian byte groups of 4 into 32-bit words. -/
def toWords : List Nat → List Nat
  | b0 :: b1 :: b2 :: b3 :: rest =>
    (b0 * 16777216 + b1 * 65536 + b2 * 256 + b3) :: toWords rest
  | _ => []

/-- Message-schedule extension to 64 words. -/
def extendW (w0 : List Nat) : List Nat :=
  (List.range 48).foldl (fun acc i =>
    let n := i + 16
    let s0 := smallSigma0 (acc.getD (n - 15) 0)
    let s1 := smallSigma1 (acc.getD (n - 2) 0)
    acc ++ [w32 (acc.getD (n - 16) 0 + s0 + acc.getD (n - 7) 0 + s1)]) w0

def compressBlock (h0 : List Nat) (block : List Nat) : List Nat :=
  let ws := extendW (toWords block)
  let st := (List.range 64).foldl (fun st i =>
    match st with
    | [a, b, c, d, e, f, g, hh] =>
      let t1 := w32 (hh + bigSigma1 e + chF e f g + sha256K.getD i 0 + ws.getD i 0)
      let t2 := w32 (bigSigma0 a + majF a b c)
      [w32 (t1 + t2), a, b, c, w32 (d + t1), e, f, g]
    | other => other) h0
  List.zipWith (fun x y => w32 (x + y)) h0 st

def natToBytesBE (count n : Nat) : List Nat :=
  (List.range count).map (fun i => (n >>> (8 * (count - 1 - i))) % 256)

def chunk64F : Nat → List Nat → List (List Nat)
  | 0, _ => []
  | _, [] => []
  | fuel + 1, l => l.take 64 :: chunk64F fuel (l.drop 64)

def sha256 (msg : List Nat) : List Nat :=
  let k := (64 - ((msg.length + 9) % 64)) % 64
  let padded := msg ++ 0x80 :: List.replicate k 0 ++ natToBytesBE 8 (msg.length * 8)
  let hs := (chunk64F (padded.length + 1) padded).foldl compressBlock sha256Init
  (hs.map (natToBytesBE 4)).flatten

def hmac_sha256 (key msg : List Nat) : List Nat :=
  let k0 := if 64 < key.length then sha256 key else key
  let kp := k0 ++ List.replicate (64 - k0.length) 0
  sha256 ((kp.map (fun b => b ^^^ 0x5c)) ++ sha256 ((kp.map (fun b => b ^^^ 0x36)) ++ msg))

def hexDigitChar (n : Nat) : Char :=
  if n < 10 then Char.ofNat (48 + n) else Char.ofNat (87 + n)

def bytesToHex (bs : List Nat) : List Char :=
  (bs.map (fun b => [hexDigitChar (b / 16), hexDigitChar (b % 16)])).flatten

def strBytes (s : String) : List Nat := s.data.map Char.toNat

/-- hex(HMAC_SHA256(secret, payload)) as the spec defines the expected
X-Nextcloud-Talk-Signature. -/
def hmac_sha256_hex (secret payload : String) : String :=
  String.mk (bytesToHex (hmac_sha256 (strBytes secret) (strBytes payload)))

/-- verify_nextcloud_talk_signature as shipped in this fork: external
Nextcloud Talk verification is disabled and every input is rejected. -/
def verify_nextcloud_talk_signature (_secret _random _body _signature : String) : Bool :=
  false

/-- The signature gate of handle_nextcloud_talk_webhook: when a webhook
secret is configured, the request is rejected with 401 unless
verify_nextcloud_talk_signature accepts it; missing headers default to
the empty string. Returns some 401 for a rejection and none when the
request proceeds to payload parsing. -/
def nextcloud_talk_signature_gate (webhookSecret : Option String)
    (randomHeader signatureHeader : Option String) (body : String) : Option Nat :=
  match webhookSecret with
  | some secret =>
    if verify_nextcloud_talk_signature secret (randomHeader.getD "")
        body (signatureHeader.getD "") then none
    else some 401
  | none => none

/-- C1 counterexample: for secret "s", random "r" and body "b", even the
correctly computed signature hex(HMAC_SHA256("s", "r" ++ "b")) is
rejected, because this fork disables Nextcloud Talk verification. -/
theorem c1_nextcloud_signature_counterexample :
    verify_nextcloud_talk_signature "s" "r" "b" (hmac_sha256_hex "s" ("r" ++ "b")) =
      false := rfl

/-- C1 (amended): verify_nextcloud_talk_signature returns false for
every secret, random, body and signature — the matching signature
included — so with a configured secret the webhook handler answers 401
to every request; the claim's negative half (a non-matching signature
such as "deadbeef" is rejected) does hold. -/
theorem c1_nextcloud_signature_amended :
    (∀ secret random body signature : String,
      verify_nextcloud_talk_signature secret random body signature = false) ∧
    (∀ (secret body : String) (randomHeader signatureHeader : Option String),
      nextcloud_talk_signature_gate (some secret) randomHeader signatureHeader body =
        some 401) ∧
    verify_nextcloud_talk_signature "s" "r" "b" "deadbeef" = false :=
  ⟨fun _ _ _ _ => rfl,
   fun _ _ _ _ => rfl,
   rfl⟩

/- ## Chat thread listing (src/gateway/mod.rs)

handle_chat_list and fetch_chat_thread_messages: the effective thread id
defaults whitespace-or-missing query values to "default", and the
DocStore pages are filtered client-side on an exact threadId match,
sorted by createdAtClient (fallback created) and truncated. -/

abbrev PBRecord := List (String × JField)

def jlookup (r : PBRecord) (k : String) : Option JField :=
  (r.find? (fun kv => kv.1 == k)).map Prod.snd

def jAsStr : JField → Option String
  | .str s => some s
  | _ => none

def record_thread_id (r : PBRecord) : Option String := (jlookup r "threadId").bind jAsStr

/-- The effective thread id: trim the query value, treat empty as
absent, default "default". -/
def effective_thread_id (q : Option String) : String :=
  match q with
  | none => "default"
  | some s =>
    let t := String.mk (trimL s.data)
    if t = "" then "default" else t

def chat_matches (tid : String) (r : PBRecord) : Bool :=
  match record_thread_id r with
  | some v => v == tid
  | none => false

def chat_sort_key (r : PBRecord) : String :=
  ((match jlookup r "createdAtClient" with
    | some v => some v
    | none => jlookup r "created").bind jAsStr).getD ""

/-- The page loop of fetch_chat_thread_messages: collect matches, stop
after a short page or once the limit is reached. -/
def collect_chat_pages (tid : String) (limit : Nat) :
    List (List PBRecord) → List PBRecord → List PBRecord
  | [], out => out
  | pg :: rest, out =>
    let out2 := out ++ pg.filter (chat_matches tid)
    if pg.length < 100 ∨ limit ≤ out2.length then out2
    else collect_chat_pages tid limit rest out2

/-- fetch_chat_thread_messages on the up-to-five successive DocStore
pages: filter, sort ascending by the sort key, truncate to the limit. -/
def fetch_chat_thread_messages (pages : List (List PBRecord)) (tid : String)
    (limit : Nat) : List PBRecord :=
  ((collect_chat_pages tid limit (pages.take 5) []).mergeSort
    (fun a b => chat_sort_key a ≤ chat_sort_key b)).take limit

/-- handle_chat_list after auth: derive the effective thread id, clamp
the limit into [1, 500], fetch. -/
def handle_chat_list_filter (pages : List (List PBRecord)) (q : Option String)
    (limitQ : Option Nat) : List PBRecord :=
  fetch_chat_thread_messages pages (effective_thread_id q)
    (min (max (limitQ.getD 200) 1) 500)

theorem mem_collect_chat_pages (tid : String) (limit : Nat) :
    ∀ (pgs : List (List PBRecord)) (out : List PBRecord) (r : PBRecord),
      r ∈ collect_chat_pages tid limit pgs out →
      r ∈ out ∨ chat_matches tid r = true := by
  intro pgs
  induction pgs with
  | nil =>
    intro out r h
    exact Or.inl (by simpa [collect_chat_pages] using h)
  | cons pg rest ih =>
    intro out r h
    simp only [collect_chat_pages] at h
    split at h
    · rcases List.mem_append.mp h with h1 | h1
      · exact Or.inl h1
      · exact Or.inr (List.mem_filter.mp h1).2
    · rcases ih _ _ h with h1 | h1
      · rcases List.mem_append.mp h1 with h2 | h2
        · exact Or.inl h2
        · exact Or.inr (List.mem_filter.mp h2).2
      · exact Or.inr h1

/-- C9: a missing, empty or whitespace-only threadId query resolves to
the thread id "default", and every record the listing returns has a
threadId field that is a string exactly equal to the effective thread
id. -/
theorem c9_chat_list_default_thread :
    effective_thread_id none = "default" ∧
    effective_thread_id (some "") = "default" ∧
    (∀ s : String, trimL s.data = [] → effective_thread_id (some s) = "default") ∧
    (∀ (pages : List (List PBRecord)) (q : Option String) (limitQ : Option Nat)
        (r : PBRecord),
      r ∈ handle_chat_list_filter pages q limitQ →
      record_thread_id r = some (effective_thread_id q)) := by
  refine ⟨rfl, rfl, ?_, ?_⟩
  · intro s h
    simp [effective_thread_id, h]
  · intro pages q limitQ r hmem
    have h1 : r ∈ (collect_chat_pages (effective_thread_id q)
        (min (max (limitQ.getD 200) 1) 500) (pages.take 5) []).mergeSort
        (fun a b => chat_sort_key a ≤ chat_sort_key b) :=
      List.mem_of_mem_take hmem
    have h2 : r ∈ collect_chat_pages (effective_thread_id q)
        (min (max (limitQ.getD 200) 1) 500) (pages.take 5) [] :=
      (List.mergeSort_perm _ _).mem_iff.mp h1
    rcases mem_collect_chat_pages _ _ _ _ _ h2 with h3 | h3
    · simp at h3
    · unfold chat_matches at h3
      rcases hr : record_thread_id r with _ | v
      · rw [hr] at h3
        simp at h3
      · rw [hr] at h3
        simp only [beq_iff_eq] at h3
        rw [h3]

theorem c9_chat_list_default_thread_witness :
    record_thread_id [("threadId", JField.str "default"), ("content", JField.str "hi")] =
      some (effective_thread_id (some "  ")) :=
  c9_chat_list_default_thread.2.2.2
    [[[("threadId", JField.str "default"), ("content", JField.str "hi")],
      [("threadId", JField.str "other")]]]
    (some "  ") none
    [("threadId", JField.str "default"), ("content", JField.str "hi")]
    (by
      simp only [handle_chat_list_filter, fetch_chat_thread_messages]
      rw [show collect_chat_pages (effective_thread_id (some "  "))
          (min (max ((none : Option Nat).getD 200) 1) 500)
          (([[[("threadId", JField.str "default"), ("content", JField.str "hi")],
            [("threadId", JField.str "other")]]] : List (List PBRecord)).take 5) [] =
          [[("threadId", JField.str "default"), ("content", JField.str "hi")]] from
        by decide]
      simp)

/- ## DocStore chat worker: pending fetch (src/pocketbase_chat.rs)

fetch_pending_messages pages through up to 5 pages of 30 records,
keeps records whose role is "user" and status "pending" under ASCII
case-insensitive comparison, then reverses (older first) and caps at 8
per tick. -/

structure ChatRecord where
  id : String
  thread_id : Option String
  role : Option String
  content : Option String
  status : Option String
deriving DecidableEq, Repr

/-- The retain condition of the fetch: role matches "user" and status
matches "pending", each case-insensitively, each field required. -/
def pending_filter (r : ChatRecord) : Bool :=
  (match r.role with
   | some role => eqIgnoreAsciiCase role.data "user".data
   | none => false) &&
  (match r.status with
   | some status => eqIgnoreAsciiCase status.data "pending".data
   | none => false)

/-- The page loop: extend with the filtered page, stop after a short
page. -/
def collect_pending_pages : List (List ChatRecord) → List ChatRecord → List ChatRecord
  | [], acc => acc
  | pg :: rest, acc =>
    let acc2 := acc ++ pg.filter pending_filter
    if pg.length < 30 then acc2 else collect_pending_pages rest acc2

/-- The records the loop looks at before its filter (same paging and
stop conditions, unfiltered). -/
def considered_records : List (List ChatRecord) → List ChatRecord
  | [] => []
  | pg :: rest => if pg.length < 30 then pg else pg ++ considered_records rest

/-- fetch_pending_messages on the successive DocStore pages. -/
def fetch_pending_messages (pages : List (List ChatRecord)) : List ChatRecord :=
  ((collect_pending_pages (pages.take 5) []).reverse).take 8

theorem collect_pending_eq_filter :
    ∀ (pgs : List (List ChatRecord)) (acc : List ChatRecord),
      collect_pending_pages pgs acc = acc ++ (considered_records pgs).filter pending_filter := by
  intro pgs
  induction pgs with
  | nil =>
    intro acc
    simp [collect_pending_pages, considered_records]
  | cons pg rest ih =>
    intro acc
    simp only [collect_pending_pages, considered_records]
    by_cases h : pg.length < 30
    · simp [h]
    · simp only [h, if_false, ih, List.filter_append, List.append_assoc]

/-- C10: the pending fetch keeps exactly the records whose role field is
"user" and whose status field is "pending" under ASCII case-insensitive
comparison — so "User"/"PENDING" is claimed and a record missing either
field is excluded — and every record it returns passes that filter. -/
theorem c10_pending_fetch_filter :
    (∀ r : ChatRecord, pending_filter r = true ↔
      (∃ role status, r.role = some role ∧ r.status = some status ∧
        lowerStr role = lowerStr "user" ∧ lowerStr status = lowerStr "pending")) ∧
    (∀ pages : List (List ChatRecord),
      collect_pending_pages (pages.take 5) [] =
        (considered_records (pages.take 5)).filter pending_filter) ∧
    (∀ (pages : List (List ChatRecord)) (r : ChatRecord),
      r ∈ fetch_pending_messages pages → pending_filter r = true) ∧
    pending_filter ⟨"1", none, some "User", none, some "PENDING"⟩ = true ∧
    pending_filter ⟨"2", none, none, none, some "pending"⟩ = false ∧
    pending_filter ⟨"3", none, some "user", none, none⟩ = false := by
  refine ⟨?_, ?_, ?_, by decide, by decide, by decide⟩
  · intro r
    rcases r with ⟨id, tid, role, content, status⟩
    rcases role with _ | role <;> rcases status with _ | status
    · simp [pending_filter]
    · simp [pending_filter]
    · simp [pending_filter]
    · simp only [pending_filter, Bool.and_eq_true, eqIgnoreAsciiCase, beq_iff_eq]
      constructor
      · rintro ⟨h1, h2⟩
        refine ⟨role, status, rfl, rfl, ?_, ?_⟩
        · simp [lowerStr, String.ext_iff, h1]
        · simp [lowerStr, String.ext_iff, h2]
      · rintro ⟨r1, s1, hr1, hs1, h1, h2⟩
        rw [Option.some.injEq] at hr1 hs1
        subst hr1
        subst hs1
        simp [lowerStr, String.ext_iff] at h1 h2
        exact ⟨h1, h2⟩
  · intro pages
    exact collect_pending_eq_filter _ []
  · intro pages r hmem
    have h1 : r ∈ (collect_pending_pages (pages.take 5) []).reverse :=
      List.mem_of_mem_take hmem
    have h2 : r ∈ collect_pending_pages (pages.take 5) [] := by
      simpa using h1
    rw [collect_pending_eq_filter _ []] at h2
    simp only [List.nil_append] at h2
    exact (List.mem_filter.mp h2).2

theorem c10_pending_fetch_filter_witness :
    pending_filter ⟨"7", some "t", some "USER", some "hi", some "Pending"⟩ = true :=
  c10_pending_fetch_filter.2.2.1
    [[⟨"7", some "t", some "USER", some "hi", some "Pending"⟩,
      ⟨"8", some "t", some "assistant", some "yo", some "pending"⟩]]
    ⟨"7", some "t", some "USER", some "hi", some "Pending"⟩
    (by decide)

/- ## Path sandbox resolvers (src/gateway/mod.rs)

Paths are component lists: a requested path string is split the way
Path::components does (empty and "." components dropped, ".." kept);
the workspace root is a list of plain names. The filesystem is a finite
map from resolved absolute paths to nodes, and canonicalize follows the
realpath rules: every component must exist, symlinks are resolved (with
a fuel bound standing in for the ELOOP limit), and ".." applies to the
already-resolved base. Path::starts_with / strip_prefix compare
components literally, ".." included, exactly as in Rust. -/

inductive PComp where
  | normal (s : String)
  | parentDir
deriving DecidableEq, Repr

inductive FsNode where
  | dir
  | file
  | symlink (absolute : Bool) (target : List PComp)
deriving DecidableEq, Repr

abbrev Fs := List (List String × FsNode)

def fsLookup (fs : Fs) (p : List String) : Option FsNode :=
  (fs.find? (fun kv => kv.1 == p)).map Prod.snd

def canonGo (fs : Fs) : Nat → List String → List PComp → Option (List String)
  | 0, _, _ => none
  | _ + 1, base, [] => some base
  | fuel + 1, base, PComp.parentDir :: rest => canonGo fs fuel base.dropLast rest
  | fuel + 1, base, PComp.normal s :: rest =>
    match fsLookup fs (base ++ [s]) with
    | none => none
    | some FsNode.dir => canonGo fs fuel (base ++ [s]) rest
    | some FsNode.file => if rest.isEmpty then some (base ++ [s]) else none
    | some (FsNode.symlink absolute target) =>
      match canonGo fs fuel (if absolute then [] else base) target with
      | none => none
      | some tgt => canonGo fs fuel tgt rest

def canonicalize (fs : Fs) (p : List PComp) : Option (List String) :=
  canonGo fs (64 + p.length) [] p

/-- Component parse of a relative path string, as Path::components
yields it. -/
def parsePath (s : String) : List PComp :=
  (splitOnCharL '/' s.data).filterMap (fun comp =>
    if comp = [] ∨ comp = ['.'] then none
    else if comp = ['.', '.'] then some PComp.parentDir
    else some (PComp.normal (String.mk comp)))

/-- Path::parent — drop the final component; none at the root. -/
def pathParent (p : List PComp) : Option (List PComp) :=
  if p.isEmpty then none else some p.dropLast

def compName : PComp → String
  | PComp.normal s => s
  | PComp.parentDir => ".."

/-- resolve_workspace_media_path: trim slashes, join, canonicalize,
require descent from the workspace and from journals/. -/
def resolve_workspace_media_path (fs : Fs) (ws : List String) (requested : String) :
    Option (List String) :=
  let trimmed := requested.data.dropWhile (fun c => c = '/')
  if trimmed.isEmpty then none
  else
    let candidate := ws.map PComp.normal ++ parsePath (String.mk trimmed)
    match canonicalize fs candidate with
    | none => none
    | some resolved =>
      if ¬ ws.isPrefixOf resolved then none
      else if ¬ (ws ++ ["journals"]).isPrefixOf resolved then none
      else some resolved

def allowed_text_dirs : List String :=
  ["journals", "memory", "state", "posts", "outputs", "artifacts"]

/-- resolve_workspace_text_path: trim slashes, join, canonicalize only
the parent (falling back to the unresolved parent when canonicalize
fails), require the parent under the workspace with its first component
allow-listed, and return the *uncanonicalized* candidate. -/
def resolve_workspace_text_path (fs : Fs) (ws : List String) (requested : String) :
    Option (List PComp) :=
  let trimmed := requested.data.dropWhile (fun c => c = '/')
  if trimmed.isEmpty then none
  else
    let candidate := ws.map PComp.normal ++ parsePath (String.mk trimmed)
    match pathParent candidate with
    | none => none
    | some parent =>
      let parent_resolved :=
        match canonicalize fs parent with
        | some r => r.map PComp.normal
        | none => parent
      if ¬ (ws.map PComp.normal).isPrefixOf parent_resolved then none
      else
        match (parent_resolved.drop ws.length).head? with
        | none => none
        | some first =>
          if allowed_text_dirs.contains (compName first) then some candidate
          else none

/-- The purely lexical target of a symlink-free path — what
create_dir_all followed by write acts on for the escape below. -/
def collapseDots (p : List PComp) : List String :=
  p.foldl (fun acc c =>
    match c with
    | PComp.normal s => acc ++ [s]
    | PComp.parentDir => acc.dropLast) []

/-- Workspace /ws containing journals/, with nothing next to /ws. -/
def c2fsEscape : Fs := [(["ws"], FsNode.dir), (["ws", "journals"], FsNode.dir)]

/-- Workspace /ws where journals/leak.md is a symlink to /etc/passwd. -/
def c2fsSymlink : Fs :=
  [(["ws"], FsNode.dir), (["ws", "journals"], FsNode.dir),
   (["ws", "journals", "leak.md"],
     FsNode.symlink true [PComp.normal "etc", PComp.normal "passwd"]),
   (["etc"], FsNode.dir), (["etc", "passwd"], FsNode.file)]

/-- Workspace /ws with journals/a/ and journals/b.md. -/
def c2fsInside : Fs :=
  [(["ws"], FsNode.dir), (["ws", "journals"], FsNode.dir),
   (["ws", "journals", "a"], FsNode.dir), (["ws", "journals", "b.md"], FsNode.file)]

/-- C2, evaluated at the failing inputs: (1) the text resolver accepts
"journals/../../pwned/x.md" when the traversed parent does not exist —
canonicalize fails, the fallback compares the raw ".."-laden parent, and
the returned candidate resolves to /pwned/x.md outside the workspace
(which save-text then creates and writes); (2) the text resolver accepts
a path whose final component is a symlink escaping the workspace, since
only the parent is canonicalized; (3) even the fully-canonicalizing
media resolver returns a path for a ".."-containing request that
resolves back inside journals/, so paths with ".." components do not
universally resolve to nothing. -/
theorem c2_path_sandbox_escape :
    (resolve_workspace_text_path c2fsEscape ["ws"] "journals/../../pwned/x.md" =
      some [PComp.normal "ws", PComp.normal "journals", PComp.parentDir,
        PComp.parentDir, PComp.normal "pwned", PComp.normal "x.md"] ∧
     collapseDots [PComp.normal "ws", PComp.normal "journals", PComp.parentDir,
        PComp.parentDir, PComp.normal "pwned", PComp.normal "x.md"] = ["pwned", "x.md"] ∧
     (["ws"] : List String).isPrefixOf ["pwned", "x.md"] = false) ∧
    (resolve_workspace_text_path c2fsSymlink ["ws"] "journals/leak.md" =
      some [PComp.normal "ws", PComp.normal "journals", PComp.normal "leak.md"] ∧
     canonicalize c2fsSymlink
        [PComp.normal "ws", PComp.normal "journals", PComp.normal "leak.md"] =
       some ["etc", "passwd"] ∧
     (["ws"] : List String).isPrefixOf ["etc", "passwd"] = false) ∧
    resolve_workspace_media_path c2fsInside ["ws"] "journals/a/../b.md" =
      some ["ws", "journals", "b.md"] := by decide

/- ## DocStore chat worker: per-record effect order (src/pocketbase_chat.rs)

poll_once is embedded as a trace-producing interpreter over oracles for
the external calls (DocStore PATCH/POST, the agent, the cron scheduler,
memory). Every effect is emitted as an event tagged with the source
record id; a failing PATCH or create marked with ? in the source aborts
the tick, best-effort calls (let _ = ...) do not. -/

inductive WEvent where
  | patchRec (rid : String) (status : String)
  | memStore (rid : String) (role : String)
  | schedInvoke (rid : String) (thread : String)
  | agentInvoke (rid : String) (content : String)
  | createRec (rid : String) (role : String) (status : String)
deriving DecidableEq, Repr

structure WOracle where
  patchOk : String → String → Bool
  createOk : String → String → Bool
  agent : String → Except String String
  schedule : String → String → Except String (String × String)
  auto_save : Bool

/-- One iteration of the poll_once record loop: the claim events in
source order, plus whether the tick aborts (a ?-propagated failure). -/
def process_chat_record (o : WOracle) (r : ChatRecord) : List WEvent × Bool :=
  let e0 := WEvent.patchRec r.id "processing"
  if o.patchOk r.id "processing" = false then ([e0], true)
  else
    let thread_id :=
      match r.thread_id with
      | some t =>
        let tt := String.mk (trimL t.data)
        if tt = "" then "default" else tt
      | none => "default"
    let content := r.content.getD ""
    if (trimL content.data).isEmpty then
      ([e0, WEvent.patchRec r.id "error"], o.patchOk r.id "error" = false)
    else
      let memEvents := if o.auto_save then [WEvent.memStore r.id "user"] else []
      match parse_reminder_intent content with
      | some _ =>
        match o.schedule thread_id content with
        | .ok _ =>
          let memEvents2 := if o.auto_save then [WEvent.memStore r.id "assistant"] else []
          if o.createOk r.id "done" = false then
            (e0 :: memEvents ++ WEvent.schedInvoke r.id thread_id :: memEvents2 ++
              [WEvent.createRec r.id "assistant" "done"], true)
          else
            (e0 :: memEvents ++ WEvent.schedInvoke r.id thread_id :: memEvents2 ++
              [WEvent.createRec r.id "assistant" "done", WEvent.patchRec r.id "done"],
             o.patchOk r.id "done" = false)
        | .error _ =>
          (e0 :: memEvents ++ [WEvent.schedInvoke r.id thread_id,
            WEvent.createRec r.id "assistant" "error", WEvent.patchRec r.id "error"],
           o.patchOk r.id "error" = false)
      | none =>
        match o.agent content with
        | .ok _ =>
          let memEvents2 := if o.auto_save then [WEvent.memStore r.id "assistant"] else []
          if o.createOk r.id "done" = false then
            (e0 :: memEvents ++ WEvent.agentInvoke r.id content :: memEvents2 ++
              [WEvent.createRec r.id "assistant" "done"], true)
          else
            (e0 :: memEvents ++ WEvent.agentInvoke r.id content :: memEvents2 ++
              [WEvent.createRec r.id "assistant" "done", WEvent.patchRec r.id "done"],
             o.patchOk r.id "done" = false)
        | .error _ =>
          (e0 :: memEvents ++ [WEvent.agentInvoke r.id content,
            WEvent.createRec r.id "assistant" "error", WEvent.patchRec r.id "error"],
           o.patchOk r.id "error" = false)

/-- The trace of one tick over the claimed pending records; an abort
cuts the remaining records exactly as the ? operator leaves poll_once. -/
def poll_once_trace (o : WOracle) : List ChatRecord → List WEvent
  | [] => []
  | r :: rest =>
    let step := process_chat_record o r
    if step.2 then step.1 else step.1 ++ poll_once_trace o rest

/-- The phase of an event in the claimed order: claim PATCH (0), agent
or scheduler invocation (1), assistant record write (2), terminal PATCH
(3). Memory stores are outside the claim. -/
def phaseRank : WEvent → Option Nat
  | WEvent.patchRec _ s => if s = "processing" then some 0 else some 3
  | WEvent.memStore _ _ => none
  | WEvent.schedInvoke _ _ => some 1
  | WEvent.agentInvoke _ _ => some 1
  | WEvent.createRec _ _ _ => some 2

def strictIncreasing : List Nat → Bool
  | [] => true
  | [_] => true
  | a :: b :: rest => decide (a < b) && strictIncreasing (b :: rest)

/-- Strict order of the claim phases within a trace. -/
def phase_ordered (t : List WEvent) : Bool := strictIncreasing (t.filterMap phaseRank)

def eventRid : WEvent → String
  | WEvent.patchRec rid _ => rid
  | WEvent.memStore rid _ => rid
  | WEvent.schedInvoke rid _ => rid
  | WEvent.agentInvoke rid _ => rid
  | WEvent.createRec rid _ _ => rid

/-- The events of one record within a tick trace. -/
def trace_for (rid : String) (t : List WEvent) : List WEvent :=
  t.filter (fun e => eventRid e == rid)

theorem process_chat_record_spec (o : WOracle) (r : ChatRecord) :
    phase_ordered (process_chat_record o r).1 = true ∧
    ∀ e ∈ (process_chat_record o r).1, eventRid e = r.id := by
  have hne1 : ¬ ("error" : String) = "processing" := by decide
  have hne2 : ¬ ("done" : String) = "processing" := by decide
  unfold process_chat_record
  by_cases h1 : o.patchOk r.id "processing" = false
  · simp [h1, phase_ordered, strictIncreasing, phaseRank, eventRid]
  · rw [if_neg h1]
    by_cases h2 : (trimL (r.content.getD "").data).isEmpty = true
    · simp [h2, phase_ordered, strictIncreasing, phaseRank, eventRid, hne1]
    · simp only [h2, if_false, Bool.false_eq_true]
      rcases hparse : parse_reminder_intent (r.content.getD "") with _ | intent
      · rcases hagent : o.agent (r.content.getD "") with err | reply
        · rcases hsave : o.auto_save with _ | _ <;>
            simp [hparse, hagent, hsave, phase_ordered, strictIncreasing, phaseRank,
              eventRid, hne1, hne2]
        · by_cases hcr : o.createOk r.id "done" = false <;>
            rcases hsave : o.auto_save with _ | _ <;>
              simp [hparse, hagent, hsave, hcr, phase_ordered, strictIncreasing,
                phaseRank, eventRid, hne1, hne2]
      · rcases hsched : o.schedule (match r.thread_id with
          | some t =>
            let tt := String.mk (trimL t.data)
            if tt = "" then "default" else tt
          | none => "default") (r.content.getD "") with err | job
        · rcases hsave : o.auto_save with _ | _ <;>
            simp [hparse, hsched, hsave, phase_ordered, strictIncreasing, phaseRank,
              eventRid, hne1, hne2]
        · by_cases hcr : o.createOk r.id "done" = false <;>
            rcases hsave : o.auto_save with _ | _ <;>
              simp [hparse, hsched, hsave, hcr, phase_ordered, strictIncreasing,
                phaseRank, eventRid, hne1, hne2]

theorem poll_once_trace_rids (o : WOracle) :
    ∀ (recs : List ChatRecord) (e : WEvent), e ∈ poll_once_trace o recs →
      eventRid e ∈ recs.map ChatRecord.id := by
  intro recs
  induction recs with
  | nil =>
    intro e h
    simp [poll_once_trace] at h
  | cons r rest ih =>
    intro e h
    simp only [poll_once_trace] at h
    split at h
    · exact List.mem_cons.mpr (Or.inl ((process_chat_record_spec o r).2 e h))
    · rcases List.mem_append.mp h with h1 | h1
      · exact List.mem_cons.mpr (Or.inl ((process_chat_record_spec o r).2 e h1))
      · exact List.mem_cons.mpr (Or.inr (ih e h1))

/-- C8: in every tick of the DocStore chat worker, for every processed
record (record ids pairwise distinct), the claim effects appear in
strict order: the PATCH to processing precedes the agent or scheduler
invocation, which precedes the assistant record write, which precedes
the terminal PATCH to done or error. -/
theorem c8_worker_effect_order (o : WOracle) (recs : List ChatRecord)
    (hnd : (recs.map ChatRecord.id).Nodup) (rid : String) :
    phase_ordered (trace_for rid (poll_once_trace o recs)) = true := by
  induction recs with
  | nil => simp [poll_once_trace, trace_for, phase_ordered, strictIncreasing]
  | cons r rest ih =>
    have hspec := process_chat_record_spec o r
    have hnd2 : (rest.map ChatRecord.id).Nodup := (List.nodup_cons.mp (by simpa using hnd)).2
    have hnotmem : r.id ∉ rest.map ChatRecord.id := (List.nodup_cons.mp (by simpa using hnd)).1
    by_cases heq : rid = r.id
    · subst heq
      have hself : trace_for r.id (process_chat_record o r).1 = (process_chat_record o r).1 :=
        List.filter_eq_self.mpr (fun e he => by simp [hspec.2 e he])
      have hrest : trace_for r.id (poll_once_trace o rest) = [] := by
        refine List.filter_eq_nil_iff.mpr ?_
        intro e he
        have := poll_once_trace_rids o rest e he
        simp only [beq_iff_eq]
        intro hcontra
        rw [hcontra] at this
        exact hnotmem this
      simp only [poll_once_trace]
      split
      · rw [hself]
        exact hspec.1
      · unfold trace_for at hself hrest ⊢
        rw [List.filter_append, hself, hrest, List.append_nil]
        exact hspec.1
    · have hnone : trace_for rid (process_chat_record o r).1 = [] := by
        refine List.filter_eq_nil_iff.mpr ?_
        intro e he
        simp only [beq_iff_eq]
        rw [hspec.2 e he]
        intro hcontra
        exact heq hcontra.symm
      simp only [poll_once_trace]
      split
      · rw [hnone]
        rfl
      · unfold trace_for at hnone ⊢
        rw [List.filter_append, hnone, List.nil_append]
        exact ih hnd2

theorem c8_worker_effect_order_witness :
    phase_ordered (trace_for "r1" (poll_once_trace
      ⟨fun _ _ => true, fun _ _ => true, fun _ => Except.ok "hello",
       fun _ _ => Except.ok ("job1", "t"), true⟩
      [⟨"r1", some "t", some "user", some "/remind 1m stretch", some "pending"⟩,
       ⟨"r2", some "t", some "user", some "what time is it", some "pending"⟩])) = true :=
  c8_worker_effect_order
    ⟨fun _ _ => true, fun _ _ => true, fun _ => Except.ok "hello",
     fun _ _ => Except.ok ("job1", "t"), true⟩
    [⟨"r1", some "t", some "user", some "/remind 1m stretch", some "pending"⟩,
     ⟨"r2", some "t", some "user", some "what time is it", some "pending"⟩]
    (by decide) "r1"
